import Mathlib

/-!
Verification development for the Facet Tag Navigator plugin.

The development shallowly embeds the plugin's core data structures and
algorithms (src/TagIndexer.ts, src/utils.ts, the FacetNavigatorView revision
in src/unnamed/part_001, the FacetManager in src/unnamed/part_004, and the
TagRenderer tree builder in src/unnamed/part_002).

Representation choices:

* A document id (`FileId`) is a string, as in the source (file paths).
* A tag is represented by its "/"-split segment list (`Tag := List String`).
  The source stores tags as slash-delimited strings; all of its tag
  operations (split + filter(Boolean), `t === u`, `t.startsWith(u + "/")`)
  are functions of the segment lists, and they are translated here at the
  segment level: string equality becomes list equality, and
  `t.startsWith(u + "/")` becomes "u is a proper list prefix of t"
  (faithful whenever a segment contains no slash, which is forced by
  splitting on "/").
* JavaScript `Map` objects become association lists with JS insertion-order
  semantics (`set` overwrites in place, otherwise appends; `delete` removes
  the entry); JavaScript `Set` objects become lists where insertion appends
  when the element is new.  All claims about these structures are stated
  through lookups and membership, which do not depend on iteration order.
-/

namespace FacetNav


abbrev FileId := String

abbrev Tag := List String

section AssocMap

variable {α : Type} {β : Type} [DecidableEq α]

/-- Association-list rendering of `Map.get`: the value at the first entry
whose key matches, if any. -/
def find? : List (α × β) → α → Option β
  | [], _ => none
  | (k, v) :: rest, a => if k = a then some v else find? rest a

/-- Association-list rendering of `Map.set`: overwrite the entry in place if
the key is present, otherwise append a new entry (JS insertion order). -/
def setEntry : List (α × β) → α → β → List (α × β)
  | [], k, v => [(k, v)]
  | (k1, v1) :: rest, k, v =>
    if k1 = k then (k, v) :: rest else (k1, v1) :: setEntry rest k v

/-- Association-list rendering of `Map.delete`. -/
def eraseKey (m : List (α × β)) (k : α) : List (α × β) :=
  m.filter (fun e => e.1 ≠ k)

/-- Key list of a map (what the source iterates with `map.keys()`). -/
def keys (m : List (α × β)) : List α := m.map (·.1)

end AssocMap

section Buckets

variable {α : Type} {γ : Type} [DecidableEq α] [DecidableEq γ]

/-- Reading a postings bucket: `map.get(k) ?? new Set()`. -/
def mapGet (m : List (α × List γ)) (k : α) : List γ :=
  (find? m k).getD []

/-- Set insertion (`set.add(x)`): append when the element is new. -/
def insertId (b : List γ) (x : γ) : List γ :=
  if x ∈ b then b else b ++ [x]

/-- The source's bucket insertion:
`let b = map.get(t); if (!b) map.set(t, b = new Set()); b.add(x)`. -/
def addToBucket (m : List (α × List γ)) (t : α) (x : γ) : List (α × List γ) :=
  setEntry m t (insertId (mapGet m t) x)

/-- The source's bucket removal with pruning:
`const b = map.get(t); if (b) { b.delete(x); if (!b.size) map.delete(t); }`. -/
def removeFromBucket (m : List (α × List γ)) (t : α) (x : γ) : List (α × List γ) :=
  match find? m t with
  | none => m
  | some b =>
    let b1 := b.filter (fun v => v ≠ x)
    if b1 = [] then eraseKey m t else setEntry m t b1

/-- No key of the map has an empty bucket (the pruning discipline of the
source: a bucket is deleted as soon as it becomes empty). -/
def PruneInv (m : List (α × List γ)) : Prop :=
  ∀ k, k ∈ keys m → mapGet m k ≠ []

end Buckets

section Indexer

/-- Ancestor chain of a tag (TagIndexer.parentsOf): split on the delimiter,
drop empty segments (`filter(Boolean)`), and return every nonempty prefix,
root first.  In the segment representation the split is already done, so
only the `filter(Boolean)` and the prefix accumulation remain. -/
def parentsOf (tag : Tag) : List Tag :=
  let parts := tag.filter (fun s => s ≠ "")
  (List.range parts.length).map (fun i => parts.take (i + 1))

/-- State of a TagIndexer: exact postings, rolled-up postings, and the
per-file exact tag sets. -/
structure Idx where
  exactTagToFiles : List (Tag × List FileId)
  tagToFiles : List (Tag × List FileId)
  fileToExactTags : List (FileId × List Tag)
deriving DecidableEq

/-- The freshly constructed (or just-cleared) index. -/
def emptyIdx : Idx := ⟨[], [], []⟩

/-- TagIndexer.exactTagsForFile: `fileToExactTags.get(id) ?? new Set()`. -/
def exactTagsForFile (s : Idx) (fileId : FileId) : List Tag :=
  (find? s.fileToExactTags fileId).getD []

/-- TagIndexer.indexFile, with the tag list collected from the file's
metadata passed as an argument (`new Set(collectTags(cache))` becomes
`tags.dedup`).  The body mirrors the source: diff against the previous
exact set, remove the file from the buckets of every previous tag and of
each of its ancestors (pruning empty buckets), then add it to the buckets
of every new tag and ancestor. -/
def indexFile (s : Idx) (fileId : FileId) (tags : List Tag) : Idx :=
  let nextExact := tags.dedup
  let prevExact := (find? s.fileToExactTags fileId).getD []
  let removed := prevExact.foldl
    (fun (pr : List (Tag × List FileId) × List (Tag × List FileId)) t =>
      (removeFromBucket pr.1 t fileId,
       (parentsOf t).foldl (fun m p => removeFromBucket m p fileId) pr.2))
    (s.exactTagToFiles, s.tagToFiles)
  let added := nextExact.foldl
    (fun (pr : List (Tag × List FileId) × List (Tag × List FileId)) t =>
      (addToBucket pr.1 t fileId,
       (parentsOf t).foldl (fun m p => addToBucket m p fileId) pr.2))
    removed
  { exactTagToFiles := added.1
    tagToFiles := added.2
    fileToExactTags := setEntry s.fileToExactTags fileId nextExact }

/-- TagIndexer.removeFile: no-op when the file is unknown, otherwise remove
it from every bucket of its exact tags and their ancestors and drop its
`fileToExactTags` entry. -/
def removeFile (s : Idx) (fileId : FileId) : Idx :=
  match find? s.fileToExactTags fileId with
  | none => s
  | some exact =>
    let removed := exact.foldl
      (fun (pr : List (Tag × List FileId) × List (Tag × List FileId)) t =>
        (removeFromBucket pr.1 t fileId,
         (parentsOf t).foldl (fun m p => removeFromBucket m p fileId) pr.2))
      (s.exactTagToFiles, s.tagToFiles)
    { exactTagToFiles := removed.1
      tagToFiles := removed.2
      fileToExactTags := eraseKey s.fileToExactTags fileId }

/-- TagIndexer.allTags returns the keys of the rolled-up postings map (the
source also sorts them, which does not change membership; the claims below
are all about membership). -/
def allTags (s : Idx) : List Tag := keys s.tagToFiles

/-- Index states reachable by any sequence of indexFile / removeFile
operations from a fresh index. -/
inductive Reachable : Idx → Prop
  | empty : Reachable emptyIdx
  | index (s : Idx) (fid : FileId) (tags : List Tag) :
      Reachable s → Reachable (indexFile s fid tags)
  | remove (s : Idx) (fid : FileId) :
      Reachable s → Reachable (removeFile s fid)

/-- The semantic invariant of the index: both postings maps are determined
by the per-file exact tag sets, and both maps prune empty buckets. -/
def Inv (s : Idx) : Prop :=
  (∀ t f, f ∈ mapGet s.exactTagToFiles t ↔ t ∈ exactTagsForFile s f) ∧
  (∀ t f, f ∈ mapGet s.tagToFiles t ↔
    ∃ u ∈ exactTagsForFile s f, t ∈ parentsOf u) ∧
  PruneInv s.exactTagToFiles ∧ PruneInv s.tagToFiles

/-- A canonical tag: nonempty, with no empty segment (what splitting a
well-formed slash path produces; `filter(Boolean)` leaves it unchanged). -/
def Canonical (t : Tag) : Prop := t ≠ [] ∧ "" ∉ t

instance (t : Tag) : Decidable (Canonical t) := by
  unfold Canonical
  infer_instance

/-- Spec 4.1 `isDescendantOrSelf(candidate, of)`:
`candidate == of || candidate.startsWith(of + "/")`, translated to segment
lists (the `startsWith` branch is a strict list-prefix test, faithful for
every tag that arises from splitting a string on "/"). -/
def isDescendantOrSelf (c : Tag) (p : Tag) : Prop := c = p ∨ (p <+: c ∧ c ≠ p)

instance (c p : Tag) : Decidable (isDescendantOrSelf c p) := by
  unfold isDescendantOrSelf
  infer_instance

/-- All per-file tags currently recorded in the index are canonical. -/
def CanonTags (s : Idx) : Prop :=
  ∀ f, ∀ t ∈ exactTagsForFile s f, Canonical t

/-- Reachability restricted to canonical tag lists (the tag lists produced
by `collectTags` on well-formed slash paths). -/
inductive ReachableC : Idx → Prop
  | empty : ReachableC emptyIdx
  | index (s : Idx) (fid : FileId) (tags : List Tag) :
      (∀ t ∈ tags, Canonical t) → ReachableC s → ReachableC (indexFile s fid tags)
  | remove (s : Idx) (fid : FileId) :
      ReachableC s → ReachableC (removeFile s fid)

end Indexer

section Normalize

/-- utils.withoutHash on the character list of a string: strip one leading
`#` if present. -/
def withoutHash (s : List Char) : List Char :=
  match s with
  | c :: rest => if c = '#' then rest else c :: rest
  | [] => []

/-- JavaScript `trim()`: drop whitespace from both ends. -/
def jsTrim (s : List Char) : List Char :=
  ((s.dropWhile Char.isWhitespace).reverse.dropWhile Char.isWhitespace).reverse

/-- JavaScript `replace(/\s+/g, "-")`: every maximal whitespace run becomes a
single hyphen.  The Boolean flag records whether the scanner is inside a
run that has already emitted its hyphen. -/
def collapseWs : List Char → Bool → List Char
  | [], _ => []
  | c :: rest, inRun =>
    if c.isWhitespace then
      if inRun then collapseWs rest true else '-' :: collapseWs rest true
    else c :: collapseWs rest false

/-- utils.normalize on character lists:
`withoutHash(tag).trim().replace(/\s+/g, "-").toLowerCase()`. -/
def normalizeChars (s : List Char) : List Char :=
  (collapseWs (jsTrim (withoutHash s)) false).map Char.toLower

/-- utils.normalize. -/
def normalize (tag : String) : String := String.mk (normalizeChars tag.data)

/-- Does the string start with a hash character? -/
def startsWithHash (s : List Char) : Bool :=
  match s with
  | c :: _ => c = '#'
  | [] => false

end Normalize

section Query

/-- utils.intersectSets (also the inner `intersect` of filesWithAll): filter
the smaller set by membership in the larger.  The source's single swap
recursion `if (a.size > b.size) return intersectSets(b, a)` is inlined. -/
def intersectSets (a b : List FileId) : List FileId :=
  if a.length > b.length then b.filter (fun v => v ∈ a)
  else a.filter (fun v => v ∈ b)

/-- JavaScript `toLowerCase()` of one segment. -/
def lowerString (s : String) : String := String.mk (s.data.map Char.toLower)

/-- JavaScript `toLowerCase()` of a whole tag (slashes are unaffected, so it
lowercases each segment). -/
def lowerTag (t : Tag) : Tag := t.map lowerString

/-- The postings set TagIndexer.filesWithAll picks for one filter tag:
`exacts.has(key) ? exactTagToFiles.get(key) ?? ∅ : tagToFiles.get(key) ?? ∅`
with `key = t.toLowerCase()`. -/
def postingsForFilter (s : Idx) (t : Tag) (exacts : List Tag) : List FileId :=
  if lowerTag t ∈ exacts then mapGet s.exactTagToFiles (lowerTag t)
  else mapGet s.tagToFiles (lowerTag t)

/-- TagIndexer.filesWithAll: empty set for an empty filter list, otherwise
intersect the per-filter postings sets in ascending size order
(`sort((a, b) => a.size - b.size)`, modelled by an insertion sort on the
same order; the JavaScript `reduce` with no initial value starts from the
first set). -/
def filesWithAll (s : Idx) (tags : List Tag) (exacts : List Tag) : List FileId :=
  if tags.isEmpty then []
  else
    let sets := (tags.map (fun t => postingsForFilter s t exacts)).insertionSort
      (fun a b => a.length ≤ b.length)
    match sets with
    | [] => []
    | s0 :: rest => rest.foldl intersectSets s0

/-- TagIndexer.coTagFrequencies: count, over the current result set, each
exact tag not in the exclusion set. -/
def coTagFrequencies (s : Idx) (currentFiles : List FileId)
    (exclude : List Tag) : List (Tag × Nat) :=
  currentFiles.foldl
    (fun freq fid =>
      match find? s.fileToExactTags fid with
      | none => freq
      | some ts =>
        ts.foldl
          (fun freq t =>
            if t ∈ exclude then freq
            else setEntry freq t ((find? freq t).getD 0 + 1))
          freq)
    []

end Query

section Facets

/-- The two per-facet match modes of the later revisions
(`'exact' | 'prefix'` in src/types.ts); the subtree mode is called `nested`
here. -/
inductive TagMatchMode
  | exact : TagMatchMode
  | nested : TagMatchMode
deriving DecidableEq

/-- A tag filter (src/types.ts TagFilter). -/
structure TagFilter where
  tag : Tag
  mode : TagMatchMode
deriving DecidableEq

/-- Segment-level translation of `t.startsWith(u + "/")`: `u` is a proper
prefix of `t`. -/
def startsWithSlash (t : Tag) (u : Tag) : Bool :=
  decide (u ≠ [] ∧ u <+: t ∧ t ≠ u)

/-- One conjunct of FacetNavigatorView.fileMatches (src/unnamed/part_001):
exact mode tests literal membership, the subtree mode tests
`t === tag || t.startsWith(tag + "/")` over the file's tags. -/
def matchesFilter (f : TagFilter) (fileTags : List Tag) : Bool :=
  match f.mode with
  | .exact => fileTags.contains f.tag
  | .nested => fileTags.any (fun t => t == f.tag || startsWithSlash t f.tag)

/-- FacetNavigatorView.fileMatches: every filter must match. -/
def fileMatches (filters : List TagFilter) (fileTags : List Tag) : Bool :=
  filters.all (fun f => matchesFilter f fileTags)

/-- The filter list FacetNavigatorView.refresh builds from the selected
map. -/
def filtersOf (selected : List (Tag × TagMatchMode)) : List TagFilter :=
  selected.map (fun e => ⟨e.1, e.2⟩)

/-- FacetNavigatorView.refresh (src/unnamed/part_001, lines 283-352):
compute the included result set (start-empty policy, legacy union of all
rolled postings, or a scan of all files against the filters), then remove
every file that carries an exact tag equal to or a descendant of any
excluded tag.  `allFiles` stands for `app.vault.getMarkdownFiles()`. -/
def refresh (s : Idx) (allFiles : List FileId)
    (selected : List (Tag × TagMatchMode)) (excluded : List Tag)
    (startEmpty : Bool) : List FileId :=
  let current :=
    if selected.isEmpty then
      if startEmpty then []
      else ((allTags s).flatMap (fun tag => filesWithAll s [tag] [])).dedup
    else
      allFiles.filter (fun fid => fileMatches (filtersOf selected) (exactTagsForFile s fid))
  if excluded.isEmpty then current
  else
    let filesToRemove := allFiles.filter (fun fid =>
      excluded.any (fun e =>
        (exactTagsForFile s fid).any (fun ft => ft == e || startsWithSlash ft e)))
    current.filter (fun fid => decide (fid ∉ filesToRemove))

/-- FacetNavigatorView.renderCoTags (src/unnamed/part_001, lines 1042-1067),
frequency part: compute co-tag frequencies excluding selected and excluded
facets, collect every frequency-map tag that descends from an excluded tag,
and if any were found recompute the frequencies with the enlarged exclusion
set. -/
def renderCoTagsFreq (s : Idx) (currentFiles : List FileId)
    (selectedKeys : List Tag) (excluded : List Tag) : List (Tag × Nat) :=
  let exclude := selectedKeys ++ excluded
  let coFreq := coTagFrequencies s currentFiles exclude
  let additionalExclusions :=
    (keys coFreq).filter (fun tag => excluded.any (fun e => startsWithSlash tag e))
  if additionalExclusions.isEmpty then coFreq
  else coTagFrequencies s currentFiles (exclude ++ additionalExclusions)

/-- Modelled from the spec: `normalizeTag` is imported by
src/unnamed/part_001 and src/unnamed/part_004 from a utils revision that is
not among the sources; spec section 4.1 defines normalization as strip a
leading `#`, trim, collapse whitespace runs, lowercase, which is exactly
utils.normalize. -/
def normalizeTag (tag : String) : String := normalize tag

/-- Selection state of the FacetManager (src/unnamed/part_004): the selected
tag-to-mode map and the excluded tag set. -/
structure FacetState where
  selected : List (String × TagMatchMode)
  excluded : List String
deriving DecidableEq

/-- FacetManager.toggleFacetMode: flip the mode of a selected facet; a
no-op when the tag is not selected (`if (!current) return`). -/
def toggleFacetMode (fs : FacetState) (tag : String) : FacetState :=
  let n := normalizeTag tag
  match find? fs.selected n with
  | none => fs
  | some current =>
    let next : TagMatchMode :=
      match current with
      | .exact => .nested
      | .nested => .exact
    { fs with selected := setEntry fs.selected n next }

/-- FacetManager.removeFacet: delete the facet from the selected map. -/
def removeFacet (fs : FacetState) (tag : String) : FacetState :=
  { fs with selected := eraseKey fs.selected (normalizeTag tag) }

end Facets

section Trees

/-- Node payload lookup in a forest keyed by full path: rolled-up count and
exact count (`node.count`, `node.exactCount`).  A tree node is identified by
its full path (`node.full`); its label is the last segment and its children
are the nodes whose path extends it by one segment, so the flat map of
payloads determines the forest. -/
def nodeGet (m : List (Tag × (Nat × Nat))) (p : Tag) : Nat × Nat :=
  (find? m p).getD (0, 0)

/-- The body of the per-segment loop shared by the two tree builders: walk
to the prefix `parts.take (i+1)`, create the node if missing, add `n` to
its rolled-up count, and update the exact count at the final segment
(`exactVal` is `+ n` for utils.buildTagTree and `fun _ => n` for
TagRenderer.buildTagTree, which assigns). -/
def treeStep (parts : Tag) (n : Nat) (exactVal : Nat → Nat)
    (layer : List (Tag × (Nat × Nat))) (i : Nat) : List (Tag × (Nat × Nat)) :=
  let acc := parts.take (i + 1)
  let node := nodeGet layer acc
  setEntry layer acc
    (node.1 + n, if i = parts.length - 1 then exactVal node.2 else node.2)

/-- One iteration of utils.buildTagTree's outer loop: split, drop empty
segments (`filter(Boolean)`), skip empty tags, then walk/create every
prefix accumulating the counts (exact count accumulates with `+=`). -/
def addTagEntry (roots : List (Tag × (Nat × Nat))) (tag : Tag) (n : Nat) :
    List (Tag × (Nat × Nat)) :=
  let parts := tag.filter (fun s => s ≠ "")
  if parts.isEmpty then roots
  else (List.range parts.length).foldl (treeStep parts n (fun e => e + n)) roots

/-- utils.buildTagTree (src/utils.ts, lines 43-73), viewed as the map from
full node path to (count, exactCount). -/
def buildTagTree (freq : List (Tag × Nat)) : List (Tag × (Nat × Nat)) :=
  freq.foldl (fun roots e => addTagEntry roots e.1 e.2) []

/-- One iteration of TagRenderer.buildTagTree's loop (src/unnamed/part_002,
lines 122-171): no empty-segment filtering, and the exact count is assigned
(`node.exactCount = count`) rather than accumulated. -/
def addTagEntryR (allNodes : List (Tag × (Nat × Nat))) (tag : Tag) (n : Nat) :
    List (Tag × (Nat × Nat)) :=
  (List.range tag.length).foldl (treeStep tag n (fun _ => n)) allNodes

/-- TagRenderer.buildTagTree: entries are processed in descending frequency
order (`sort((a, b) => b[1] - a[1])`, modelled by an insertion sort on the
same order). -/
def buildTagTreeR (freq : List (Tag × Nat)) : List (Tag × (Nat × Nat)) :=
  (freq.insertionSort (fun a b => b.2 ≤ a.2)).foldl
    (fun m e => addTagEntryR m e.1 e.2) []

/-- A nonempty prefix `p` of a split tag receives contributions from that
tag in the tree builders. -/
def touches (p : Tag) (parts : Tag) : Prop := p ≠ [] ∧ p <+: parts

instance (p parts : Tag) : Decidable (touches p parts) := by
  unfold touches
  infer_instance

/-- Total rolled-up count a path receives from a frequency list (under the
builder's segment preprocessing `f`). -/
def countSpec (freq : List (Tag × Nat)) (f : Tag → Tag) (p : Tag) : Nat :=
  ((freq.filter (fun e => decide (touches p (f e.1)))).map (fun e => e.2)).sum

/-- Total exact count a path receives from a frequency list. -/
def exactSpec (freq : List (Tag × Nat)) (f : Tag → Tag) (p : Tag) : Nat :=
  ((freq.filter (fun e => decide (f e.1 = p ∧ p ≠ []))).map (fun e => e.2)).sum

/-- Equality of two forests as full-path-keyed maps: same node set and the
same (count, exactCount) at every node; labels and the child relation are
functions of the path set, so this is forest equality. -/
def treeEquiv (A B : List (Tag × (Nat × Nat))) : Prop :=
  (∀ e ∈ A, find? B e.1 = some e.2) ∧ (∀ e ∈ B, find? A e.1 = some e.2)

instance (A B : List (Tag × (Nat × Nat))) : Decidable (treeEquiv A B) := by
  unfold treeEquiv
  infer_instance

end Trees

section AssocMap

variable {α : Type} {β : Type} [DecidableEq α]

@[simp]
theorem find?_nil (a : α) : find? ([] : List (α × β)) a = none := rfl

theorem find?_cons (k : α) (v : β) (rest : List (α × β)) (a : α) :
    find? ((k, v) :: rest) a = if k = a then some v else find? rest a := rfl

@[simp]
theorem find?_setEntry (m : List (α × β)) (k : α) (v : β) (a : α) :
    find? (setEntry m k v) a = if k = a then some v else find? m a := by
  induction m with
  | nil => simp [setEntry, find?]
  | cons e rest ih =>
    obtain ⟨k1, v1⟩ := e
    by_cases h1 : k1 = k
    · subst h1
      by_cases h2 : k1 = a
      · subst h2
        simp [setEntry, find?]
      · simp [setEntry, find?, h2]
    · by_cases h2 : k1 = a
      · subst h2
        simp [setEntry, find?, h1, Ne.symm h1, ih]
      · simp [setEntry, find?, h1, h2, ih]

@[simp]
theorem find?_eraseKey (m : List (α × β)) (k : α) (a : α) :
    find? (eraseKey m k) a = if k = a then none else find? m a := by
  induction m with
  | nil => simp [eraseKey, find?]
  | cons e rest ih =>
    obtain ⟨k1, v1⟩ := e
    simp only [eraseKey] at ih ⊢
    by_cases h1 : k1 = k
    · subst h1
      by_cases h2 : k1 = a
      · subst h2
        simpa [find?, List.filter] using ih
      · simpa [find?, List.filter, h2] using ih
    · by_cases h2 : k1 = a
      · subst h2
        simp [find?, List.filter, h1, Ne.symm h1]
      · simp only [ne_eq, decide_not] at ih
        simp [find?, List.filter, h1, h2, ih]

theorem mem_keys_iff_isSome (m : List (α × β)) (a : α) :
    a ∈ keys m ↔ (find? m a).isSome := by
  induction m with
  | nil => simp [keys, find?]
  | cons e rest ih =>
    obtain ⟨k1, v1⟩ := e
    by_cases h : k1 = a
    · subst h
      simp [keys, find?]
    · simp [keys, find?, h, Ne.symm h] at ih ⊢
      exact ih

theorem find?_eq_none_of_not_mem_keys {m : List (α × β)} {a : α}
    (h : a ∉ keys m) : find? m a = none := by
  rw [mem_keys_iff_isSome] at h
  cases hf : find? m a with
  | none => rfl
  | some v => rw [hf] at h; simp at h

theorem find?_mem {m : List (α × β)} {a : α} {v : β}
    (h : find? m a = some v) : (a, v) ∈ m := by
  induction m with
  | nil => simp [find?] at h
  | cons e rest ih =>
    obtain ⟨k1, v1⟩ := e
    by_cases hk : k1 = a
    · subst hk
      simp [find?] at h
      simp [h]
    · simp [find?, hk] at h
      simp [ih h]

theorem find?_of_mem_of_nodup {m : List (α × β)} {e : α × β}
    (hnd : (keys m).Nodup) (h : e ∈ m) : find? m e.1 = some e.2 := by
  induction m with
  | nil => simp at h
  | cons e1 rest ih =>
    obtain ⟨k1, v1⟩ := e1
    simp only [keys, List.map_cons, List.nodup_cons] at hnd
    rcases List.mem_cons.mp h with h | h
    · subst h
      simp [find?]
    · have hk : k1 ≠ e.1 := by
        intro hke
        exact hnd.1 (hke ▸ List.mem_map.mpr ⟨e, h, rfl⟩)
      simp [find?, hk]
      exact ih hnd.2 h

theorem keys_setEntry (m : List (α × β)) (k : α) (v : β) (a : α) :
    a ∈ keys (setEntry m k v) ↔ a ∈ keys m ∨ a = k := by
  induction m with
  | nil => simp [setEntry, keys, eq_comm]
  | cons e rest ih =>
    obtain ⟨k1, v1⟩ := e
    by_cases h1 : k1 = k
    · subst h1
      simp [setEntry, keys, eq_comm]
      tauto
    · simp [setEntry, h1, keys] at ih ⊢
      tauto

theorem keys_nodup_setEntry (m : List (α × β)) (k : α) (v : β)
    (hnd : (keys m).Nodup) : (keys (setEntry m k v)).Nodup := by
  induction m with
  | nil => simp [setEntry, keys]
  | cons e rest ih =>
    obtain ⟨k1, v1⟩ := e
    simp only [keys, List.map_cons, List.nodup_cons] at hnd
    by_cases h1 : k1 = k
    · subst h1
      simpa [setEntry, keys] using hnd
    · simp only [setEntry, if_neg h1, keys, List.map_cons, List.nodup_cons]
      constructor
      · intro hmem
        rcases (keys_setEntry rest k v k1).mp hmem with h | h
        · exact hnd.1 (by simpa [keys] using h)
        · exact h1 h
      · exact ih hnd.2

theorem keys_eraseKey_eq (m : List (α × β)) (k : α) :
    keys (eraseKey m k) = (keys m).filter (fun a => a ≠ k) := by
  induction m with
  | nil => rfl
  | cons e rest ih =>
    obtain ⟨k1, v1⟩ := e
    by_cases h : k1 = k <;>
      simp [eraseKey, keys, List.filter, h] at ih ⊢ <;>
      simpa [eraseKey, keys] using ih

theorem keys_nodup_eraseKey (m : List (α × β)) (k : α)
    (hnd : (keys m).Nodup) : (keys (eraseKey m k)).Nodup := by
  rw [keys_eraseKey_eq]
  exact hnd.filter _

end AssocMap

section Buckets

variable {α : Type} {γ : Type} [DecidableEq α] [DecidableEq γ]

theorem mem_insertId (b : List γ) (x y : γ) :
    y ∈ insertId b x ↔ y ∈ b ∨ y = x := by
  by_cases h : x ∈ b
  · simp only [insertId, if_pos h]
    constructor
    · exact Or.inl
    · rintro (hy | rfl) <;> assumption
  · simp [insertId, if_neg h]

theorem mem_mapGet_addToBucket (m : List (α × List γ)) (t : α) (x : γ)
    (u : α) (y : γ) :
    y ∈ mapGet (addToBucket m t x) u ↔ y ∈ mapGet m u ∨ (u = t ∧ y = x) := by
  unfold addToBucket mapGet
  rw [find?_setEntry]
  by_cases h : t = u
  · subst h
    simp [mem_insertId, mapGet]
  · simp [h, Ne.symm h]

theorem mem_mapGet_removeFromBucket (m : List (α × List γ)) (t : α) (x : γ)
    (u : α) (y : γ) :
    y ∈ mapGet (removeFromBucket m t x) u ↔
      y ∈ mapGet m u ∧ ¬(u = t ∧ y = x) := by
  unfold removeFromBucket
  cases hf : find? m t with
  | none =>
    simp only []
    constructor
    · intro hy
      refine ⟨hy, ?_⟩
      rintro ⟨rfl, rfl⟩
      simp [mapGet, hf] at hy
    · exact fun h => h.1
  | some b =>
    have hall : b.filter (fun v => v ≠ x) = [] → ∀ z ∈ b, z = x := by
      intro hb z hz
      by_contra hne
      have hmem : z ∈ b.filter (fun v => v ≠ x) :=
        List.mem_filter.mpr ⟨hz, by simp [hne]⟩
      rw [hb] at hmem
      simp at hmem
    simp only []
    by_cases hb : b.filter (fun v => v ≠ x) = []
    · rw [if_pos hb]
      simp only [mapGet, find?_eraseKey]
      by_cases h : t = u
      · subst h
        have h1 : (if t = t then (none : Option (List γ)) else find? m t) = none :=
          if_pos rfl
        rw [h1, hf]
        simp only [Option.getD_none, Option.getD_some, List.not_mem_nil, false_iff]
        rintro ⟨hy, hne⟩
        exact hne ⟨trivial, hall hb y hy⟩
      · simp [h, Ne.symm h]
    · rw [if_neg hb]
      simp only [mapGet, find?_setEntry]
      by_cases h : t = u
      · subst h
        have h1 : (if t = t then some (b.filter (fun v => v ≠ x)) else find? m t)
            = some (b.filter (fun v => v ≠ x)) := if_pos rfl
        rw [h1, hf]
        simp only [Option.getD_some, List.mem_filter]
        simp only [ne_eq, decide_not, Bool.not_eq_eq_eq_not, Bool.not_true,
          decide_eq_false_iff_not]
        tauto
      · simp [h, Ne.symm h]

/-- All the removals performed for one file across a list of keys. -/
theorem mem_mapGet_foldl_remove (K : List α) (x : γ) :
    ∀ (m : List (α × List γ)) (u : α) (y : γ),
      y ∈ mapGet (K.foldl (fun m t => removeFromBucket m t x) m) u ↔
        y ∈ mapGet m u ∧ ¬(u ∈ K ∧ y = x) := by
  induction K with
  | nil => simp
  | cons t K ih =>
    intro m u y
    simp only [List.foldl_cons, ih, mem_mapGet_removeFromBucket, List.mem_cons]
    tauto

/-- All the insertions performed for one file across a list of keys. -/
theorem mem_mapGet_foldl_add (K : List α) (x : γ) :
    ∀ (m : List (α × List γ)) (u : α) (y : γ),
      y ∈ mapGet (K.foldl (fun m t => addToBucket m t x) m) u ↔
        y ∈ mapGet m u ∨ (u ∈ K ∧ y = x) := by
  induction K with
  | nil => simp
  | cons t K ih =>
    intro m u y
    simp only [List.foldl_cons, ih, mem_mapGet_addToBucket, List.mem_cons]
    tauto

theorem insertId_ne_nil (b : List γ) (x : γ) : insertId b x ≠ [] := by
  unfold insertId
  split
  · exact List.ne_nil_of_mem (by assumption)
  · simp

theorem pruneInv_addToBucket (m : List (α × List γ)) (t : α) (x : γ)
    (h : PruneInv m) : PruneInv (addToBucket m t x) := by
  intro k hk
  unfold addToBucket at hk ⊢
  unfold mapGet
  rw [find?_setEntry]
  by_cases ht : t = k
  · simp only [if_pos ht, Option.getD_some]
    exact insertId_ne_nil _ x
  · rw [if_neg ht]
    rcases (keys_setEntry m t _ k).mp hk with hk1 | hk1
    · exact h k hk1
    · exact absurd hk1.symm ht

theorem pruneInv_removeFromBucket (m : List (α × List γ)) (t : α) (x : γ)
    (h : PruneInv m) : PruneInv (removeFromBucket m t x) := by
  intro k hk
  unfold removeFromBucket at hk ⊢
  cases hf : find? m t with
  | none =>
    rw [hf] at hk
    exact h k hk
  | some b =>
    rw [hf] at hk
    simp only [] at hk ⊢
    by_cases hb : b.filter (fun v => v ≠ x) = []
    · rw [if_pos hb] at hk ⊢
      unfold mapGet
      rw [find?_eraseKey]
      rw [keys_eraseKey_eq] at hk
      rcases List.mem_filter.mp hk with ⟨hk1, hk2⟩
      have hkt : ¬ t = k := by
        intro hkt
        subst hkt
        simp at hk2
      rw [if_neg hkt]
      exact h k hk1
    · rw [if_neg hb] at hk ⊢
      unfold mapGet
      rw [find?_setEntry]
      by_cases ht : t = k
      · subst ht
        simpa using hb
      · rw [if_neg ht]
        rcases (keys_setEntry m t _ k).mp hk with hk1 | hk1
        · exact h k hk1
        · exact absurd hk1.symm ht

theorem pruneInv_foldl_remove (K : List α) (x : γ) :
    ∀ (m : List (α × List γ)), PruneInv m →
      PruneInv (K.foldl (fun m t => removeFromBucket m t x) m) := by
  induction K with
  | nil => exact fun m h => h
  | cons t K ih => exact fun m h => ih _ (pruneInv_removeFromBucket m t x h)

theorem pruneInv_foldl_add (K : List α) (x : γ) :
    ∀ (m : List (α × List γ)), PruneInv m →
      PruneInv (K.foldl (fun m t => addToBucket m t x) m) := by
  induction K with
  | nil => exact fun m h => h
  | cons t K ih => exact fun m h => ih _ (pruneInv_addToBucket m t x h)

theorem keys_removeFromBucket_subset (m : List (α × List γ)) (t : α) (x : γ)
    (k : α) (hk : k ∈ keys (removeFromBucket m t x)) : k ∈ keys m := by
  unfold removeFromBucket at hk
  cases hf : find? m t with
  | none => rw [hf] at hk; exact hk
  | some b =>
    rw [hf] at hk
    simp only [] at hk
    by_cases hb : b.filter (fun v => v ≠ x) = []
    · rw [if_pos hb, keys_eraseKey_eq] at hk
      exact (List.mem_filter.mp hk).1
    · rw [if_neg hb] at hk
      rcases (keys_setEntry m t _ k).mp hk with hk1 | hk1
      · exact hk1
      · subst hk1
        exact (mem_keys_iff_isSome m k).mpr (by simp [hf])

theorem mem_mapGet_exists {m : List (α × List γ)} {k : α} {x : γ}
    (h : x ∈ mapGet m k) : ∃ e ∈ m, x ∈ e.2 := by
  unfold mapGet at h
  cases hf : find? m k with
  | none =>
    rw [hf] at h
    simp at h
  | some b =>
    rw [hf] at h
    exact ⟨(k, b), find?_mem hf, h⟩

theorem mapGet_cov (m : List (α × List γ)) (P : γ → Prop)
    (h : ∀ e ∈ m, ∀ x ∈ e.2, P x) : ∀ (k : α) (x : γ), x ∈ mapGet m k → P x := by
  intro k x hx
  obtain ⟨e, he, hxe⟩ := mem_mapGet_exists hx
  exact h e he x hxe

theorem keys_foldl_remove_subset (K : List α) (x : γ) :
    ∀ (m : List (α × List γ)) (k : α),
      k ∈ keys (K.foldl (fun m t => removeFromBucket m t x) m) → k ∈ keys m := by
  induction K with
  | nil => exact fun m k h => h
  | cons t K ih =>
    intro m k h
    exact keys_removeFromBucket_subset m t x k (ih _ k h)

end Buckets

section Indexer

theorem removePair_decomp (x : FileId) :
    ∀ (P : List Tag) (a b : List (Tag × List FileId)),
      P.foldl
        (fun pr t =>
          (removeFromBucket pr.1 t x,
           (parentsOf t).foldl (fun m p => removeFromBucket m p x) pr.2)) (a, b) =
      (P.foldl (fun m t => removeFromBucket m t x) a,
       (P.flatMap parentsOf).foldl (fun m p => removeFromBucket m p x) b) := by
  intro P
  induction P with
  | nil => intro a b; rfl
  | cons t P ih =>
    intro a b
    simp only [List.foldl_cons, List.flatMap_cons, List.foldl_append]
    exact ih _ _

theorem addPair_decomp (x : FileId) :
    ∀ (P : List Tag) (a b : List (Tag × List FileId)),
      P.foldl
        (fun pr t =>
          (addToBucket pr.1 t x,
           (parentsOf t).foldl (fun m p => addToBucket m p x) pr.2)) (a, b) =
      (P.foldl (fun m t => addToBucket m t x) a,
       (P.flatMap parentsOf).foldl (fun m p => addToBucket m p x) b) := by
  intro P
  induction P with
  | nil => intro a b; rfl
  | cons t P ih =>
    intro a b
    simp only [List.foldl_cons, List.flatMap_cons, List.foldl_append]
    exact ih _ _

theorem inv_emptyIdx : Inv emptyIdx := by
  refine ⟨?_, ?_, ?_, ?_⟩ <;> intro t f <;>
    simp [emptyIdx, mapGet, exactTagsForFile, find?, PruneInv, keys] at *

theorem exactTagsForFile_indexFile (s : Idx) (fid : FileId) (tags : List Tag)
    (g : FileId) :
    exactTagsForFile (indexFile s fid tags) g =
      if fid = g then tags.dedup else exactTagsForFile s g := by
  unfold exactTagsForFile indexFile
  simp only [find?_setEntry]
  split <;> rfl

theorem indexFile_exact_eq (s : Idx) (fid : FileId) (tags : List Tag) :
    (indexFile s fid tags).exactTagToFiles =
      (tags.dedup).foldl (fun m t => addToBucket m t fid)
        ((exactTagsForFile s fid).foldl
          (fun m t => removeFromBucket m t fid) s.exactTagToFiles) := by
  unfold indexFile exactTagsForFile
  dsimp only
  rw [removePair_decomp, addPair_decomp]

theorem indexFile_rolled_eq (s : Idx) (fid : FileId) (tags : List Tag) :
    (indexFile s fid tags).tagToFiles =
      ((tags.dedup).flatMap parentsOf).foldl (fun m p => addToBucket m p fid)
        (((exactTagsForFile s fid).flatMap parentsOf).foldl
          (fun m p => removeFromBucket m p fid) s.tagToFiles) := by
  unfold indexFile exactTagsForFile
  dsimp only
  rw [removePair_decomp, addPair_decomp]

theorem inv_indexFile (s : Idx) (fid : FileId) (tags : List Tag)
    (h : Inv s) : Inv (indexFile s fid tags) := by
  obtain ⟨hex, hro, hpe, hpr⟩ := h
  have hro2 : ∀ t f, f ∈ mapGet s.tagToFiles t ↔
      t ∈ (exactTagsForFile s f).flatMap parentsOf := by
    intro t f
    rw [hro t f]
    exact (List.mem_flatMap).symm
  refine ⟨?_, ?_, ?_, ?_⟩
  · intro t f
    rw [indexFile_exact_eq, mem_mapGet_foldl_add, mem_mapGet_foldl_remove,
      exactTagsForFile_indexFile, hex t f]
    by_cases hf : fid = f
    · subst hf
      have hif : (if fid = fid then tags.dedup else exactTagsForFile s fid)
          = tags.dedup := if_pos rfl
      rw [hif]
      simp only [eq_self_iff_true, and_true]
      tauto
    · have hf2 : f ≠ fid := fun hc => hf hc.symm
      rw [if_neg hf]
      simp only [hf2, and_false, not_false_eq_true, and_true, or_false]
  · intro t f
    rw [indexFile_rolled_eq, mem_mapGet_foldl_add, mem_mapGet_foldl_remove,
      hro2 t f, ← List.mem_flatMap, exactTagsForFile_indexFile]
    by_cases hf : fid = f
    · subst hf
      have hif : (if fid = fid then tags.dedup else exactTagsForFile s fid)
          = tags.dedup := if_pos rfl
      rw [hif]
      simp only [eq_self_iff_true, and_true]
      tauto
    · have hf2 : f ≠ fid := fun hc => hf hc.symm
      rw [if_neg hf]
      simp only [hf2, and_false, not_false_eq_true, and_true, or_false]
  · rw [indexFile_exact_eq]
    exact pruneInv_foldl_add _ _ _ (pruneInv_foldl_remove _ _ _ hpe)
  · rw [indexFile_rolled_eq]
    exact pruneInv_foldl_add _ _ _ (pruneInv_foldl_remove _ _ _ hpr)

theorem removeFile_known (s : Idx) (fid : FileId) (prev : List Tag)
    (hf : find? s.fileToExactTags fid = some prev) :
    removeFile s fid =
      { exactTagToFiles := prev.foldl (fun m t => removeFromBucket m t fid) s.exactTagToFiles
        tagToFiles := (prev.flatMap parentsOf).foldl
          (fun m p => removeFromBucket m p fid) s.tagToFiles
        fileToExactTags := eraseKey s.fileToExactTags fid } := by
  unfold removeFile
  rw [hf]
  simp only [removePair_decomp]

theorem removeFile_unknown (s : Idx) (fid : FileId)
    (hf : find? s.fileToExactTags fid = none) : removeFile s fid = s := by
  unfold removeFile
  rw [hf]

theorem exactTagsForFile_removeFile (s : Idx) (fid : FileId) (g : FileId) :
    exactTagsForFile (removeFile s fid) g =
      if fid = g then [] else exactTagsForFile s g := by
  cases hf : find? s.fileToExactTags fid with
  | none =>
    rw [removeFile_unknown s fid hf]
    by_cases h : fid = g
    · subst h
      simp [exactTagsForFile, hf]
    · rw [if_neg h]
  | some prev =>
    rw [removeFile_known s fid prev hf]
    unfold exactTagsForFile
    simp only [find?_eraseKey]
    split <;> rfl

theorem removeFile_exact_eq (s : Idx) (fid : FileId) (prev : List Tag)
    (hf : find? s.fileToExactTags fid = some prev) :
    (removeFile s fid).exactTagToFiles =
      prev.foldl (fun m t => removeFromBucket m t fid) s.exactTagToFiles := by
  rw [removeFile_known s fid prev hf]

theorem removeFile_rolled_eq (s : Idx) (fid : FileId) (prev : List Tag)
    (hf : find? s.fileToExactTags fid = some prev) :
    (removeFile s fid).tagToFiles =
      (prev.flatMap parentsOf).foldl
        (fun m p => removeFromBucket m p fid) s.tagToFiles := by
  rw [removeFile_known s fid prev hf]

theorem inv_removeFile (s : Idx) (fid : FileId) (h : Inv s) :
    Inv (removeFile s fid) := by
  obtain ⟨hex, hro, hpe, hpr⟩ := h
  have hro2 : ∀ t f, f ∈ mapGet s.tagToFiles t ↔
      t ∈ (exactTagsForFile s f).flatMap parentsOf := by
    intro t f
    rw [hro t f]
    exact (List.mem_flatMap).symm
  cases hf : find? s.fileToExactTags fid with
  | none =>
    rw [removeFile_unknown s fid hf]
    exact ⟨hex, hro, hpe, hpr⟩
  | some prev =>
    have hprev : prev = exactTagsForFile s fid := by
      unfold exactTagsForFile
      rw [hf]
      rfl
    refine ⟨?_, ?_, ?_, ?_⟩
    · intro t f
      rw [removeFile_exact_eq s fid prev hf, mem_mapGet_foldl_remove,
        exactTagsForFile_removeFile, hex t f]
      subst hprev
      by_cases hff : fid = f
      · subst hff
        have hif : (if fid = fid then ([] : List Tag) else exactTagsForFile s fid)
            = [] := if_pos rfl
        rw [hif]
        simp only [eq_self_iff_true, and_true, List.not_mem_nil, iff_false]
        tauto
      · have hf2 : f ≠ fid := fun hc => hff hc.symm
        rw [if_neg hff]
        simp only [hf2, and_false, not_false_eq_true, and_true]
    · intro t f
      rw [removeFile_rolled_eq s fid prev hf, mem_mapGet_foldl_remove,
        hro2 t f, ← List.mem_flatMap, exactTagsForFile_removeFile]
      subst hprev
      by_cases hff : fid = f
      · subst hff
        have hif : (if fid = fid then ([] : List Tag) else exactTagsForFile s fid)
            = [] := if_pos rfl
        rw [hif]
        simp only [eq_self_iff_true, and_true, List.flatMap_nil,
          List.not_mem_nil, iff_false]
        tauto
      · have hf2 : f ≠ fid := fun hc => hff hc.symm
        rw [if_neg hff]
        simp only [hf2, and_false, not_false_eq_true, and_true]
    · rw [removeFile_exact_eq s fid prev hf]
      exact pruneInv_foldl_remove _ _ _ hpe
    · rw [removeFile_rolled_eq s fid prev hf]
      exact pruneInv_foldl_remove _ _ _ hpr

theorem inv_of_reachable {s : Idx} (h : Reachable s) : Inv s := by
  induction h with
  | empty => exact inv_emptyIdx
  | index s fid tags _ ih => exact inv_indexFile s fid tags ih
  | remove s fid _ ih => exact inv_removeFile s fid ih

theorem mem_parentsOf (p : Tag) (t : Tag) :
    p ∈ parentsOf t ↔ p ≠ [] ∧ p <+: t.filter (fun s => s ≠ "") := by
  unfold parentsOf
  simp only [List.mem_map, List.mem_range]
  constructor
  · rintro ⟨i, hi, rfl⟩
    constructor
    · have hlen : (List.take (i + 1) (t.filter (fun s => s ≠ ""))).length = i + 1 := by
        rw [List.length_take]
        omega
      intro hnil
      rw [hnil] at hlen
      simp at hlen
    · exact List.take_prefix _ _
  · rintro ⟨hne, hpre⟩
    have hle := hpre.length_le
    have hpos : 0 < p.length := List.length_pos.mpr hne
    refine ⟨p.length - 1, by omega, ?_⟩
    have : p.length - 1 + 1 = p.length := by omega
    rw [this]
    exact (List.prefix_iff_eq_take.mp hpre).symm

theorem canonical_filter_eq {t : Tag} (h : Canonical t) :
    t.filter (fun s => s ≠ "") = t := by
  rw [List.filter_eq_self]
  intro a ha
  simp only [ne_eq, decide_not, Bool.not_eq_eq_eq_not, Bool.not_true,
    decide_eq_false_iff_not]
  intro hae
  exact h.2 (hae ▸ ha)

theorem mem_parentsOf_canonical {p : Tag} {t : Tag} (hc : Canonical t)
    (hp : p ≠ []) : p ∈ parentsOf t ↔ isDescendantOrSelf t p := by
  rw [mem_parentsOf, canonical_filter_eq hc]
  unfold isDescendantOrSelf
  constructor
  · rintro ⟨-, hpre⟩
    by_cases he : t = p
    · exact Or.inl he
    · exact Or.inr ⟨hpre, he⟩
  · rintro (rfl | ⟨hpre, -⟩)
    · exact ⟨hp, List.prefix_refl _⟩
    · exact ⟨hp, hpre⟩

theorem reachable_of_reachableC {s : Idx} (h : ReachableC s) : Reachable s := by
  induction h with
  | empty => exact Reachable.empty
  | index s fid tags _ _ ih => exact Reachable.index s fid tags ih
  | remove s fid _ ih => exact Reachable.remove s fid ih

theorem canonTags_of_reachableC {s : Idx} (h : ReachableC s) : CanonTags s := by
  induction h with
  | empty =>
    intro f t ht
    simp [exactTagsForFile, emptyIdx, find?] at ht
  | index s fid tags hcanon _ ih =>
    intro f t ht
    rw [exactTagsForFile_indexFile] at ht
    by_cases hf : fid = f
    · rw [if_pos hf] at ht
      exact hcanon t (List.mem_dedup.mp ht)
    · rw [if_neg hf] at ht
      exact ih f t ht
  | remove s fid _ ih =>
    intro f t ht
    rw [exactTagsForFile_removeFile] at ht
    by_cases hf : fid = f
    · rw [if_pos hf] at ht
      simp at ht
    · rw [if_neg hf] at ht
      exact ih f t ht

end Indexer

section Normalize

theorem toNat_ofNat_valid (m : Nat) (hm : Nat.isValidChar m) :
    (Char.ofNat m).toNat = m := by
  simp [Char.ofNat, hm, Char.ofNatAux, Char.toNat, UInt32.toNat,
    BitVec.toNat_ofNatLt]

theorem toLower_toLower (c : Char) :
    Char.toLower (Char.toLower c) = Char.toLower c := by
  unfold Char.toLower
  dsimp only
  by_cases h : c.toNat ≥ 65 ∧ c.toNat ≤ 90
  · rw [if_pos h]
    have hv : Nat.isValidChar (c.toNat + 32) := Or.inl (by omega)
    rw [if_neg]
    rw [toNat_ofNat_valid _ hv]
    omega
  · rw [if_neg h, if_neg h]

theorem toLower_not_ws (c : Char) (h : c.isWhitespace = false) :
    (Char.toLower c).isWhitespace = false := by
  unfold Char.toLower
  dsimp only
  by_cases hc : c.toNat ≥ 65 ∧ c.toNat ≤ 90
  · rw [if_pos hc]
    have hv : Nat.isValidChar (c.toNat + 32) := Or.inl (by omega)
    have ht := toNat_ofNat_valid _ hv
    have hne : ∀ d : Char, d.toNat ≠ (Char.ofNat (c.toNat + 32)).toNat →
        Char.ofNat (c.toNat + 32) ≠ d := by
      intro d hd he
      exact hd (he ▸ rfl)
    unfold Char.isWhitespace
    have h1 : Char.ofNat (c.toNat + 32) ≠ ' ' := by
      apply hne
      rw [ht]
      have : (' ' : Char).toNat = 32 := by decide
      omega
    have h2 : Char.ofNat (c.toNat + 32) ≠ '\t' := by
      apply hne
      rw [ht]
      have : ('\t' : Char).toNat = 9 := by decide
      omega
    have h3 : Char.ofNat (c.toNat + 32) ≠ '\x0d' := by
      apply hne
      rw [ht]
      have : ('\x0d' : Char).toNat = 13 := by decide
      omega
    have h4 : Char.ofNat (c.toNat + 32) ≠ '\n' := by
      apply hne
      rw [ht]
      have : ('\n' : Char).toNat = 10 := by decide
      omega
    simp [h1, h2, h3, h4, Ne.symm]
  · rw [if_neg hc]
    exact h

theorem mem_collapseWs_not_ws :
    ∀ (l : List Char) (b : Bool) (c : Char),
      c ∈ collapseWs l b → c.isWhitespace = false := by
  intro l
  induction l with
  | nil => intro b c hc; simp [collapseWs] at hc
  | cons d rest ih =>
    intro b c hc
    unfold collapseWs at hc
    by_cases hd : d.isWhitespace
    · rw [if_pos hd] at hc
      cases b with
      | true => exact ih true c hc
      | false =>
        simp only [Bool.false_eq_true, if_false, List.mem_cons] at hc
        rcases hc with rfl | hc
        · decide
        · exact ih true c hc
    · rw [if_neg hd] at hc
      rcases List.mem_cons.mp hc with rfl | hc
      · simpa using hd
      · exact ih false c hc

theorem collapseWs_eq_self :
    ∀ (l : List Char) (b : Bool),
      (∀ c ∈ l, c.isWhitespace = false) → collapseWs l b = l := by
  intro l
  induction l with
  | nil => intro b _; rfl
  | cons d rest ih =>
    intro b h
    unfold collapseWs
    have hd : d.isWhitespace = false := h d (List.mem_cons_self d rest)
    rw [if_neg (by simp [hd])]
    rw [ih false (fun c hc => h c (List.mem_cons_of_mem d hc))]

theorem dropWhile_ws_eq_self (l : List Char)
    (h : ∀ c ∈ l, c.isWhitespace = false) :
    l.dropWhile Char.isWhitespace = l := by
  cases l with
  | nil => rfl
  | cons d rest =>
    rw [List.dropWhile_cons, if_neg]
    simp [h d (List.mem_cons_self d rest)]

theorem jsTrim_eq_self (l : List Char)
    (h : ∀ c ∈ l, c.isWhitespace = false) : jsTrim l = l := by
  unfold jsTrim
  rw [dropWhile_ws_eq_self l h, dropWhile_ws_eq_self l.reverse
    (fun c hc => h c (List.mem_reverse.mp hc)), List.reverse_reverse]

theorem withoutHash_eq_self (l : List Char) (h : startsWithHash l = false) :
    withoutHash l = l := by
  cases l with
  | nil => rfl
  | cons c rest =>
    have h2 : (decide (c = '#')) = false := h
    show (if c = '#' then rest else c :: rest) = c :: rest
    rw [if_neg]
    simpa using h2

theorem normalizeChars_not_ws (s : List Char) :
    ∀ c ∈ normalizeChars s, c.isWhitespace = false := by
  intro c hc
  unfold normalizeChars at hc
  rcases List.mem_map.mp hc with ⟨d, hd, rfl⟩
  exact toLower_not_ws d (mem_collapseWs_not_ws _ _ d hd)

theorem normalizeChars_idem (s : List Char)
    (h : startsWithHash (normalizeChars s) = false) :
    normalizeChars (normalizeChars s) = normalizeChars s := by
  have hws := normalizeChars_not_ws s
  conv_lhs => rw [normalizeChars]
  rw [withoutHash_eq_self _ h, jsTrim_eq_self _ hws, collapseWs_eq_self _ _ hws]
  unfold normalizeChars
  rw [List.map_map]
  exact List.map_congr_left (fun c _ => toLower_toLower c)

end Normalize

section Query

theorem mem_intersectSets (a b : List FileId) (v : FileId) :
    v ∈ intersectSets a b ↔ v ∈ a ∧ v ∈ b := by
  unfold intersectSets
  split
  · simp only [List.mem_filter, decide_eq_true_eq]
    tauto
  · simp [List.mem_filter]

theorem mem_foldl_intersectSets :
    ∀ (rest : List (List FileId)) (s0 : List FileId) (v : FileId),
      v ∈ rest.foldl intersectSets s0 ↔ v ∈ s0 ∧ ∀ b ∈ rest, v ∈ b := by
  intro rest
  induction rest with
  | nil => simp
  | cons b rest ih =>
    intro s0 v
    rw [List.foldl_cons, ih, mem_intersectSets]
    simp only [List.forall_mem_cons]
    tauto

theorem mem_filesWithAll (s : Idx) (tags exacts : List Tag)
    (h : tags ≠ []) (f : FileId) :
    f ∈ filesWithAll s tags exacts ↔
      ∀ t ∈ tags, f ∈ postingsForFilter s t exacts := by
  unfold filesWithAll
  rw [if_neg (by simpa using h)]
  have hperm := List.perm_insertionSort
    (fun a b : List FileId => a.length ≤ b.length)
    (tags.map (fun t => postingsForFilter s t exacts))
  cases hs : (tags.map (fun t => postingsForFilter s t exacts)).insertionSort
      (fun a b => a.length ≤ b.length) with
  | nil =>
    rw [hs] at hperm
    have hmap : tags.map (fun t => postingsForFilter s t exacts) = [] :=
      hperm.symm.eq_nil
    have htags : tags = [] := by simpa using hmap
    exact absurd htags h
  | cons s0 rest =>
    rw [hs] at hperm
    rw [mem_foldl_intersectSets]
    have h2 : (f ∈ s0 ∧ ∀ b ∈ rest, f ∈ b) ↔ ∀ b ∈ s0 :: rest, f ∈ b := by
      simp [List.forall_mem_cons]
    rw [h2]
    constructor
    · intro hall t htag
      exact hall _ (hperm.mem_iff.mpr (List.mem_map.mpr ⟨t, htag, rfl⟩))
    · intro hall b hb
      rcases List.mem_map.mp (hperm.mem_iff.mp hb) with ⟨t, htag, rfl⟩
      exact hall t htag

end Query

section Facets

theorem mem_keys_bumpFold (E : List Tag) :
    ∀ (ts : List Tag) (acc : List (Tag × Nat)) (t : Tag),
      t ∈ keys (ts.foldl
        (fun freq t =>
          if t ∈ E then freq
          else setEntry freq t ((find? freq t).getD 0 + 1)) acc) ↔
      t ∈ keys acc ∨ (t ∉ E ∧ t ∈ ts) := by
  intro ts
  induction ts with
  | nil => simp
  | cons t0 ts ih =>
    intro acc t
    rw [List.foldl_cons]
    by_cases h0 : t0 ∈ E
    · rw [if_pos h0, ih]
      constructor
      · rintro (h | ⟨hne, hmem⟩)
        · exact Or.inl h
        · exact Or.inr ⟨hne, List.mem_cons_of_mem t0 hmem⟩
      · rintro (h | ⟨hne, hmem⟩)
        · exact Or.inl h
        · rcases List.mem_cons.mp hmem with rfl | hmem
          · exact absurd h0 hne
          · exact Or.inr ⟨hne, hmem⟩
    · rw [if_neg h0, ih]
      rw [keys_setEntry]
      constructor
      · rintro ((h | rfl) | ⟨hne, hmem⟩)
        · exact Or.inl h
        · exact Or.inr ⟨h0, List.mem_cons_self _ _⟩
        · exact Or.inr ⟨hne, List.mem_cons_of_mem t0 hmem⟩
      · rintro (h | ⟨hne, hmem⟩)
        · exact Or.inl (Or.inl h)
        · rcases List.mem_cons.mp hmem with rfl | hmem
          · exact Or.inl (Or.inr rfl)
          · exact Or.inr ⟨hne, hmem⟩

theorem mem_keys_coTagFold (s : Idx) (E : List Tag) :
    ∀ (files : List FileId) (acc : List (Tag × Nat)) (t : Tag),
      t ∈ keys (files.foldl
        (fun freq fid =>
          match find? s.fileToExactTags fid with
          | none => freq
          | some ts =>
            ts.foldl
              (fun freq t =>
                if t ∈ E then freq
                else setEntry freq t ((find? freq t).getD 0 + 1))
              freq) acc) ↔
      t ∈ keys acc ∨
        (t ∉ E ∧ ∃ fid ∈ files, ∃ ts,
          find? s.fileToExactTags fid = some ts ∧ t ∈ ts) := by
  intro files
  induction files with
  | nil => simp
  | cons fid files ih =>
    intro acc t
    rw [List.foldl_cons]
    cases hf : find? s.fileToExactTags fid with
    | none =>
      rw [ih]
      simp only [List.mem_cons]
      constructor
      · rintro (h | ⟨hne, fid2, hfid2, ts, hts, hmem⟩)
        · exact Or.inl h
        · exact Or.inr ⟨hne, fid2, Or.inr hfid2, ts, hts, hmem⟩
      · rintro (h | ⟨hne, fid2, hfid2 | hfid2, ts, hts, hmem⟩)
        · exact Or.inl h
        · rw [hfid2, hf] at hts
          exact absurd hts (by simp)
        · exact Or.inr ⟨hne, fid2, hfid2, ts, hts, hmem⟩
    | some ts0 =>
      rw [ih, mem_keys_bumpFold]
      simp only [List.mem_cons]
      constructor
      · rintro ((h | ⟨hne, hmem⟩) | ⟨hne, fid2, hfid2, ts, hts, hmem⟩)
        · exact Or.inl h
        · exact Or.inr ⟨hne, fid, Or.inl rfl, ts0, hf, hmem⟩
        · exact Or.inr ⟨hne, fid2, Or.inr hfid2, ts, hts, hmem⟩
      · rintro (h | ⟨hne, fid2, hfid2 | hfid2, ts, hts, hmem⟩)
        · exact Or.inl (Or.inl h)
        · rw [hfid2, hf] at hts
          obtain rfl : ts0 = ts := by simpa using hts
          exact Or.inl (Or.inr ⟨hne, hmem⟩)
        · exact Or.inr ⟨hne, fid2, hfid2, ts, hts, hmem⟩

theorem mem_keys_coTagFrequencies (s : Idx) (files : List FileId)
    (E : List Tag) (t : Tag) :
    t ∈ keys (coTagFrequencies s files E) ↔
      t ∉ E ∧ ∃ fid ∈ files, ∃ ts,
        find? s.fileToExactTags fid = some ts ∧ t ∈ ts := by
  unfold coTagFrequencies
  rw [mem_keys_coTagFold]
  simp [keys]

end Facets

section Trees

theorem take_succ_inj (parts : Tag) (i j : Nat) (hi : i < parts.length)
    (hj : j < parts.length) (h : parts.take (i + 1) = parts.take (j + 1)) :
    i = j := by
  have := congrArg List.length h
  simp only [List.length_take] at this
  omega

theorem exists_range_take_iff (parts : Tag) (p : Tag) :
    (∃ i ∈ List.range parts.length, p = parts.take (i + 1)) ↔
      p ≠ [] ∧ p <+: parts := by
  constructor
  · rintro ⟨i, hi, rfl⟩
    rw [List.mem_range] at hi
    refine ⟨?_, List.take_prefix _ _⟩
    have : (parts.take (i + 1)).length = i + 1 := by
      rw [List.length_take]
      omega
    intro hnil
    rw [hnil] at this
    simp at this
  · rintro ⟨hne, hpre⟩
    have hle := hpre.length_le
    have hpos : 0 < p.length := List.length_pos.mpr hne
    refine ⟨p.length - 1, List.mem_range.mpr (by omega), ?_⟩
    have heq : p.length - 1 + 1 = p.length := by omega
    rw [heq]
    exact List.prefix_iff_eq_take.mp hpre

theorem take_eq_parts_iff (parts : Tag) (i : Nat) (hi : i < parts.length) :
    parts.take (i + 1) = parts ↔ i = parts.length - 1 := by
  constructor
  · intro h
    have := congrArg List.length h
    simp only [List.length_take] at this
    omega
  · intro h
    subst h
    have : parts.length ≤ parts.length - 1 + 1 := by omega
    exact List.take_of_length_le this

theorem find?_foldl_treeStep (parts : Tag) (n : Nat) (ev : Nat → Nat) :
    ∀ (L : List Nat), L.Nodup → (∀ i ∈ L, i < parts.length) →
    ∀ (m : List (Tag × (Nat × Nat))) (p : Tag),
      find? (L.foldl (treeStep parts n ev) m) p =
        if ∃ i ∈ L, p = parts.take (i + 1)
        then some ((nodeGet m p).1 + n,
                   if p = parts then ev (nodeGet m p).2 else (nodeGet m p).2)
        else find? m p := by
  intro L
  induction L with
  | nil =>
    intro _ _ m p
    rw [if_neg]
    · rfl
    · rintro ⟨i, hi, -⟩
      simp at hi
  | cons i0 L ih =>
    intro hnd hbound m p
    rw [List.nodup_cons] at hnd
    have hi0 : i0 < parts.length := hbound i0 (List.mem_cons_self _ _)
    have hbL : ∀ i ∈ L, i < parts.length :=
      fun i hi => hbound i (List.mem_cons_of_mem _ hi)
    rw [List.foldl_cons, ih hnd.2 hbL]
    have hstep : find? (treeStep parts n ev m i0) p =
        if parts.take (i0 + 1) = p
        then some ((nodeGet m (parts.take (i0 + 1))).1 + n,
          if i0 = parts.length - 1 then ev (nodeGet m (parts.take (i0 + 1))).2
          else (nodeGet m (parts.take (i0 + 1))).2)
        else find? m p := by
      unfold treeStep
      rw [find?_setEntry]
    by_cases hk : p = parts.take (i0 + 1)
    · subst hk
      have hnotL : ¬ ∃ i ∈ L, parts.take (i0 + 1) = parts.take (i + 1) := by
        rintro ⟨i, hiL, heq⟩
        exact hnd.1 (take_succ_inj parts i0 i hi0 (hbL i hiL) heq ▸ hiL)
      have hex : ∃ i ∈ i0 :: L, parts.take (i0 + 1) = parts.take (i + 1) :=
        ⟨i0, List.mem_cons_self _ _, rfl⟩
      rw [if_neg hnotL, hstep, if_pos rfl, if_pos hex]
      have hiff : i0 = parts.length - 1 ↔ parts.take (i0 + 1) = parts :=
        (take_eq_parts_iff parts i0 hi0).symm
      by_cases hlast : parts.take (i0 + 1) = parts
      · rw [if_pos (hiff.mpr hlast), if_pos hlast]
      · rw [if_neg (fun h => hlast (hiff.mp h)), if_neg hlast]
    · have hfind : find? (treeStep parts n ev m i0) p = find? m p := by
        rw [hstep, if_neg (fun h => hk h.symm)]
      have hnode : nodeGet (treeStep parts n ev m i0) p = nodeGet m p := by
        unfold nodeGet
        rw [hfind]
      rw [hfind, hnode]
      by_cases hL : ∃ i ∈ L, p = parts.take (i + 1)
      · have hex2 : ∃ i ∈ i0 :: L, p = parts.take (i + 1) := by
          obtain ⟨i, hiL, hp⟩ := hL
          exact ⟨i, List.mem_cons_of_mem _ hiL, hp⟩
        rw [if_pos hL, if_pos hex2]
      · have hnot2 : ¬ ∃ i ∈ i0 :: L, p = parts.take (i + 1) := by
          rintro ⟨i, hi, hp⟩
          rcases List.mem_cons.mp hi with rfl | hi
          · exact hk hp
          · exact hL ⟨i, hi, hp⟩
        rw [if_neg hL, if_neg hnot2]

theorem find?_addTagEntry (m : List (Tag × (Nat × Nat))) (tag : Tag) (n : Nat)
    (p : Tag) :
    find? (addTagEntry m tag n) p =
      if touches p (tag.filter (fun s => s ≠ ""))
      then some ((nodeGet m p).1 + n,
        if p = tag.filter (fun s => s ≠ "")
        then (nodeGet m p).2 + n else (nodeGet m p).2)
      else find? m p := by
  unfold addTagEntry
  by_cases hparts : (tag.filter (fun s => s ≠ "")).isEmpty
  · rw [if_pos hparts]
    rw [if_neg]
    rintro ⟨hne, hpre⟩
    rw [List.isEmpty_iff] at hparts
    rw [hparts] at hpre
    exact hne (List.prefix_nil.mp hpre)
  · rw [if_neg hparts]
    rw [find?_foldl_treeStep _ n _ _ (List.nodup_range _)
      (fun i hi => List.mem_range.mp hi) m p]
    simp only [exists_range_take_iff, touches]

theorem find?_addTagEntryR (m : List (Tag × (Nat × Nat))) (tag : Tag) (n : Nat)
    (p : Tag) :
    find? (addTagEntryR m tag n) p =
      if touches p tag
      then some ((nodeGet m p).1 + n,
        if p = tag then n else (nodeGet m p).2)
      else find? m p := by
  unfold addTagEntryR
  rw [find?_foldl_treeStep _ n _ _ (List.nodup_range _)
    (fun i hi => List.mem_range.mp hi) m p]
  simp only [exists_range_take_iff, touches]

theorem countSpec_cons (e : Tag × Nat) (rest : List (Tag × Nat))
    (f : Tag → Tag) (p : Tag) :
    countSpec (e :: rest) f p =
      (if touches p (f e.1) then e.2 else 0) + countSpec rest f p := by
  unfold countSpec
  by_cases h : touches p (f e.1)
  · rw [if_pos h]
    simp [List.filter_cons, h]
  · rw [if_neg h]
    simp [List.filter_cons, h]

theorem exactSpec_cons (e : Tag × Nat) (rest : List (Tag × Nat))
    (f : Tag → Tag) (p : Tag) :
    exactSpec (e :: rest) f p =
      (if f e.1 = p ∧ p ≠ [] then e.2 else 0) + exactSpec rest f p := by
  unfold exactSpec
  by_cases h : f e.1 = p ∧ p ≠ []
  · rw [if_pos h]
    simp [List.filter_cons, h]
  · rw [if_neg h]
    simp [List.filter_cons, h]

theorem exactSpec_eq_zero (freq : List (Tag × Nat)) (p : Tag)
    (h : p ∉ freq.map (fun e => e.1)) : exactSpec freq id p = 0 := by
  unfold exactSpec
  have hfil : freq.filter (fun e => decide (id e.1 = p ∧ p ≠ [])) = [] := by
    rw [List.filter_eq_nil_iff]
    intro e he
    simp only [id, decide_eq_true_eq, not_and]
    intro hep
    exact absurd (List.mem_map.mpr ⟨e, he, hep⟩) h
  rw [hfil]
  rfl

theorem find?_buildFold (freq : List (Tag × Nat)) :
    ∀ (m : List (Tag × (Nat × Nat))) (p : Tag),
      find? (freq.foldl (fun roots e => addTagEntry roots e.1 e.2) m) p =
        if (∃ e ∈ freq, touches p (e.1.filter (fun s => s ≠ ""))) ∨
            (find? m p).isSome
        then some
          ((nodeGet m p).1 + countSpec freq (fun t => t.filter (fun s => s ≠ "")) p,
           (nodeGet m p).2 + exactSpec freq (fun t => t.filter (fun s => s ≠ "")) p)
        else none := by
  induction freq with
  | nil =>
    intro m p
    cases hf : find? m p with
    | none =>
      rw [if_neg (by simp)]
      exact hf
    | some v =>
      rw [if_pos (by simp)]
      show find? m p = _
      unfold countSpec exactSpec nodeGet
      rw [hf]
      simp [Prod.mk.eta]
  | cons e rest ih =>
    intro m p
    rw [List.foldl_cons, ih (addTagEntry m e.1 e.2) p,
      countSpec_cons, exactSpec_cons]
    by_cases he : touches p (e.1.filter (fun s => s ≠ ""))
    · have hstep := find?_addTagEntry m e.1 e.2 p
      rw [if_pos he] at hstep
      have hnode : nodeGet (addTagEntry m e.1 e.2) p =
          ((nodeGet m p).1 + e.2,
           if p = e.1.filter (fun s => s ≠ "") then (nodeGet m p).2 + e.2
           else (nodeGet m p).2) := by
        unfold nodeGet
        rw [hstep]
        rfl
      have hsome : (find? (addTagEntry m e.1 e.2) p).isSome := by
        rw [hstep]
        rfl
      rw [if_pos (Or.inr hsome), if_pos (Or.inl ⟨e, List.mem_cons_self _ _, he⟩),
        hnode, if_pos he]
      refine congrArg some (Prod.ext ?_ ?_)
      · simp only []
        omega
      · simp only []
        by_cases hpe : p = e.1.filter (fun s => s ≠ "")
        · rw [if_pos hpe, if_pos ⟨hpe.symm, he.1⟩]
          omega
        · rw [if_neg hpe, if_neg]
          · omega
          · rintro ⟨h1, -⟩
            exact hpe h1.symm
    · have hstep := find?_addTagEntry m e.1 e.2 p
      rw [if_neg he] at hstep
      have hnode : nodeGet (addTagEntry m e.1 e.2) p = nodeGet m p := by
        unfold nodeGet
        rw [hstep]
      have hexz : ¬ (e.1.filter (fun s => s ≠ "") = p ∧ p ≠ []) := by
        rintro ⟨h1, h2⟩
        exact he ⟨h2, h1 ▸ List.prefix_refl _⟩
      rw [hstep, hnode, if_neg he, if_neg hexz]
      by_cases hrest : (∃ e2 ∈ rest, touches p (e2.1.filter (fun s => s ≠ ""))) ∨
          (find? m p).isSome
      · rw [if_pos hrest, if_pos]
        · refine congrArg some (Prod.ext ?_ ?_) <;> simp only [] <;> omega
        · rcases hrest with ⟨e2, he2, ht2⟩ | hs
          · exact Or.inl ⟨e2, List.mem_cons_of_mem _ he2, ht2⟩
          · exact Or.inr hs
      · rw [if_neg hrest, if_neg]
        rintro (⟨e2, he2, ht2⟩ | hs)
        · rcases List.mem_cons.mp he2 with rfl | he2
          · exact he ht2
          · exact hrest (Or.inl ⟨e2, he2, ht2⟩)
        · exact hrest (Or.inr hs)

theorem find?_buildTagTree (freq : List (Tag × Nat)) (p : Tag) :
    find? (buildTagTree freq) p =
      if ∃ e ∈ freq, touches p (e.1.filter (fun s => s ≠ ""))
      then some (countSpec freq (fun t => t.filter (fun s => s ≠ "")) p,
                 exactSpec freq (fun t => t.filter (fun s => s ≠ "")) p)
      else none := by
  unfold buildTagTree
  rw [find?_buildFold freq [] p]
  by_cases hc : ∃ e ∈ freq, touches p (e.1.filter (fun s => s ≠ ""))
  · rw [if_pos (Or.inl hc), if_pos hc]
    refine congrArg some (Prod.ext ?_ ?_) <;> simp [nodeGet, find?]
  · rw [if_neg, if_neg hc]
    rintro (h | hs)
    · exact hc h
    · simp [find?] at hs

theorem find?_buildFoldR (freq : List (Tag × Nat)) :
    ∀ (m : List (Tag × (Nat × Nat))) (p : Tag),
      (freq.map (fun e => e.1)).Nodup →
      find? (freq.foldl (fun m e => addTagEntryR m e.1 e.2) m) p =
        if (∃ e ∈ freq, touches p e.1) ∨ (find? m p).isSome
        then some
          ((nodeGet m p).1 + countSpec freq id p,
           if p ∈ freq.map (fun e => e.1) ∧ p ≠ [] then exactSpec freq id p
           else (nodeGet m p).2)
        else none := by
  induction freq with
  | nil =>
    intro m p _
    cases hf : find? m p with
    | none =>
      rw [if_neg (by simp)]
      exact hf
    | some v =>
      rw [if_pos (by simp)]
      show find? m p = _
      rw [if_neg (by simp), show countSpec [] id p = 0 from rfl]
      unfold nodeGet
      rw [hf]
      simp [Prod.mk.eta]
  | cons e rest ih =>
    intro m p hnd
    rw [List.map_cons, List.nodup_cons] at hnd
    rw [List.foldl_cons, ih (addTagEntryR m e.1 e.2) p hnd.2, countSpec_cons]
    simp only [id_eq, List.map_cons]
    have hstep := find?_addTagEntryR m e.1 e.2 p
    by_cases he : touches p e.1
    · rw [if_pos he] at hstep
      have hnode : nodeGet (addTagEntryR m e.1 e.2) p =
          ((nodeGet m p).1 + e.2,
           if p = e.1 then e.2 else (nodeGet m p).2) := by
        unfold nodeGet
        rw [hstep]
        rfl
      have hsome : (find? (addTagEntryR m e.1 e.2) p).isSome := by
        rw [hstep]
        rfl
      have hc2 : (∃ e2 ∈ e :: rest, touches p e2.1) ∨ (find? m p).isSome :=
        Or.inl ⟨e, List.mem_cons_self _ _, he⟩
      rw [if_pos (Or.inr hsome), if_pos hc2, hnode, if_pos he]
      refine congrArg some (Prod.ext ?_ ?_)
      · simp only []
        omega
      · simp only []
        by_cases hmem : p ∈ rest.map (fun e => e.1)
        · have hpe : p ≠ e.1 := by
            intro hpe
            exact hnd.1 (hpe ▸ hmem)
          have ha : p ∈ rest.map (fun e => e.1) ∧ p ≠ [] := ⟨hmem, he.1⟩
          have hb : p ∈ e.1 :: rest.map (fun e => e.1) ∧ p ≠ [] :=
            ⟨List.mem_cons_of_mem _ hmem, he.1⟩
          have hnc : ¬ (id e.1 = p ∧ p ≠ []) := by
            rintro ⟨h1, -⟩
            exact hpe h1.symm
          rw [if_pos ha, if_pos hb, exactSpec_cons, if_neg hnc, Nat.zero_add]
        · by_cases hpe : p = e.1
          · have ha : ¬ (p ∈ rest.map (fun e => e.1) ∧ p ≠ []) :=
              fun hc => hmem hc.1
            have hb : p ∈ e.1 :: rest.map (fun e => e.1) ∧ p ≠ [] :=
              ⟨List.mem_cons.mpr (Or.inl hpe), he.1⟩
            have hcnd : id e.1 = p ∧ p ≠ [] := ⟨hpe.symm, he.1⟩
            rw [if_neg ha, if_pos hb, exactSpec_cons, if_pos hcnd, if_pos hpe,
              exactSpec_eq_zero rest p hmem]
            omega
          · have ha : ¬ (p ∈ rest.map (fun e => e.1) ∧ p ≠ []) :=
              fun hc => hmem hc.1
            have hb : ¬ (p ∈ e.1 :: rest.map (fun e => e.1) ∧ p ≠ []) := by
              rintro ⟨hmem2, -⟩
              rcases List.mem_cons.mp hmem2 with h1 | h1
              · exact hpe h1
              · exact hmem h1
            rw [if_neg ha, if_neg hb, if_neg hpe]
    · rw [if_neg he] at hstep
      have hnode : nodeGet (addTagEntryR m e.1 e.2) p = nodeGet m p := by
        unfold nodeGet
        rw [hstep]
      have hnp : ¬ (p = e.1 ∧ p ≠ []) := by
        rintro ⟨rfl, h2⟩
        exact he ⟨h2, List.prefix_refl _⟩
      rw [hstep, hnode, if_neg he, Nat.zero_add]
      have hexeq : exactSpec (e :: rest) id p = exactSpec rest id p := by
        rw [exactSpec_cons, if_neg, Nat.zero_add]
        rintro ⟨h1, h2⟩
        exact hnp ⟨h1.symm, h2⟩
      by_cases hrest : (∃ e2 ∈ rest, touches p e2.1) ∨ (find? m p).isSome
      · have hc2 : (∃ e2 ∈ e :: rest, touches p e2.1) ∨ (find? m p).isSome := by
          rcases hrest with ⟨e2, he2, ht2⟩ | hs
          · exact Or.inl ⟨e2, List.mem_cons_of_mem _ he2, ht2⟩
          · exact Or.inr hs
        rw [if_pos hrest, if_pos hc2, hexeq]
        by_cases hmem : p ∈ rest.map (fun e => e.1) ∧ p ≠ []
        · have hb : p ∈ e.1 :: rest.map (fun e => e.1) ∧ p ≠ [] :=
            ⟨List.mem_cons_of_mem _ hmem.1, hmem.2⟩
          rw [if_pos hmem, if_pos hb]
        · have hb : ¬ (p ∈ e.1 :: rest.map (fun e => e.1) ∧ p ≠ []) := by
            rintro ⟨hmem2, h2⟩
            rcases List.mem_cons.mp hmem2 with h1 | h1
            · exact hnp ⟨h1, h2⟩
            · exact hmem ⟨h1, h2⟩
          rw [if_neg hmem, if_neg hb]
      · have hc2 : ¬ ((∃ e2 ∈ e :: rest, touches p e2.1) ∨ (find? m p).isSome) := by
          rintro (⟨e2, he2, ht2⟩ | hs)
          · rcases List.mem_cons.mp he2 with rfl | he2
            · exact he ht2
            · exact hrest (Or.inl ⟨e2, he2, ht2⟩)
          · exact hrest (Or.inr hs)
        rw [if_neg hrest, if_neg hc2]

theorem countSpec_perm {freq1 freq2 : List (Tag × Nat)} (h : freq1.Perm freq2)
    (f : Tag → Tag) (p : Tag) : countSpec freq1 f p = countSpec freq2 f p :=
  ((h.filter _).map _).sum_eq

theorem exactSpec_perm {freq1 freq2 : List (Tag × Nat)} (h : freq1.Perm freq2)
    (f : Tag → Tag) (p : Tag) : exactSpec freq1 f p = exactSpec freq2 f p :=
  ((h.filter _).map _).sum_eq

theorem find?_buildTagTreeR (freq : List (Tag × Nat)) (p : Tag)
    (hnd : (freq.map (fun e => e.1)).Nodup) :
    find? (buildTagTreeR freq) p =
      if ∃ e ∈ freq, touches p e.1
      then some (countSpec freq id p,
                 if p ∈ freq.map (fun e => e.1) ∧ p ≠ [] then exactSpec freq id p
                 else 0)
      else none := by
  unfold buildTagTreeR
  have hperm := List.perm_insertionSort (fun a b : Tag × Nat => b.2 ≤ a.2) freq
  have hnd2 : ((freq.insertionSort (fun a b => b.2 ≤ a.2)).map
      (fun e => e.1)).Nodup :=
    ((hperm.map (fun e => e.1)).nodup_iff).mpr hnd
  rw [find?_buildFoldR _ [] p hnd2]
  have hex : (∃ e ∈ freq.insertionSort (fun a b => b.2 ≤ a.2), touches p e.1) ↔
      ∃ e ∈ freq, touches p e.1 := by
    constructor
    · rintro ⟨e, he, ht⟩
      exact ⟨e, hperm.mem_iff.mp he, ht⟩
    · rintro ⟨e, he, ht⟩
      exact ⟨e, hperm.mem_iff.mpr he, ht⟩
  have hmemiff : p ∈ (freq.insertionSort (fun a b => b.2 ≤ a.2)).map
      (fun e => e.1) ↔ p ∈ freq.map (fun e => e.1) :=
    (hperm.map (fun e => e.1)).mem_iff
  by_cases hc : ∃ e ∈ freq, touches p e.1
  · rw [if_pos (Or.inl (hex.mpr hc)), if_pos hc]
    refine congrArg some (Prod.ext ?_ ?_)
    · simp only []
      rw [countSpec_perm hperm]
      simp [nodeGet, find?]
    · simp only []
      by_cases hmem : p ∈ freq.map (fun e => e.1) ∧ p ≠ []
      · rw [if_pos ⟨hmemiff.mpr hmem.1, hmem.2⟩, if_pos hmem,
          exactSpec_perm hperm]
      · rw [if_neg (fun h2 => hmem ⟨hmemiff.mp h2.1, h2.2⟩), if_neg hmem]
        rfl
  · rw [if_neg, if_neg hc]
    rintro (h | hs)
    · exact hc (hex.mp h)
    · simp [find?] at hs

theorem keys_nodup_foldl_treeStep (parts : Tag) (n : Nat) (ev : Nat → Nat) :
    ∀ (L : List Nat) (m : List (Tag × (Nat × Nat))),
      (keys m).Nodup → (keys (L.foldl (treeStep parts n ev) m)).Nodup := by
  intro L
  induction L with
  | nil => exact fun m h => h
  | cons i L ih =>
    intro m h
    exact ih _ (keys_nodup_setEntry _ _ _ h)

theorem keys_nodup_addTagEntry (m : List (Tag × (Nat × Nat))) (tag : Tag)
    (n : Nat) (h : (keys m).Nodup) : (keys (addTagEntry m tag n)).Nodup := by
  unfold addTagEntry
  dsimp only
  split
  · exact h
  · exact keys_nodup_foldl_treeStep _ _ _ _ m h

theorem keys_nodup_addTagEntryR (m : List (Tag × (Nat × Nat))) (tag : Tag)
    (n : Nat) (h : (keys m).Nodup) : (keys (addTagEntryR m tag n)).Nodup :=
  keys_nodup_foldl_treeStep _ _ _ _ m h

theorem keys_nodup_buildTagTree (freq : List (Tag × Nat)) :
    (keys (buildTagTree freq)).Nodup := by
  unfold buildTagTree
  have : ∀ (l : List (Tag × Nat)) (m : List (Tag × (Nat × Nat))),
      (keys m).Nodup →
      (keys (l.foldl (fun roots e => addTagEntry roots e.1 e.2) m)).Nodup := by
    intro l
    induction l with
    | nil => exact fun m h => h
    | cons e l ih => exact fun m h => ih _ (keys_nodup_addTagEntry m e.1 e.2 h)
  exact this freq [] (by simp [keys])

theorem keys_nodup_buildTagTreeR (freq : List (Tag × Nat)) :
    (keys (buildTagTreeR freq)).Nodup := by
  unfold buildTagTreeR
  have : ∀ (l : List (Tag × Nat)) (m : List (Tag × (Nat × Nat))),
      (keys m).Nodup →
      (keys (l.foldl (fun m e => addTagEntryR m e.1 e.2) m)).Nodup := by
    intro l
    induction l with
    | nil => exact fun m h => h
    | cons e l ih => exact fun m h => ih _ (keys_nodup_addTagEntryR m e.1 e.2 h)
  exact this _ [] (by simp [keys])

theorem countSpec_eq_map_sum (freq : List (Tag × Nat)) (f : Tag → Tag)
    (p : Tag) :
    countSpec freq f p =
      (freq.map (fun e => if touches p (f e.1) then e.2 else 0)).sum := by
  induction freq with
  | nil => rfl
  | cons e rest ih =>
    rw [countSpec_cons, List.map_cons, List.sum_cons, ih]

theorem exactSpec_eq_map_sum (freq : List (Tag × Nat)) (f : Tag → Tag)
    (p : Tag) :
    exactSpec freq f p =
      (freq.map (fun e => if f e.1 = p ∧ p ≠ [] then e.2 else 0)).sum := by
  induction freq with
  | nil => rfl
  | cons e rest ih =>
    rw [exactSpec_cons, List.map_cons, List.sum_cons, ih]

theorem sum_map_add {α : Type} (A : List α) (f g : α → Nat) :
    (A.map (fun a => f a + g a)).sum = (A.map f).sum + (A.map g).sum := by
  induction A with
  | nil => rfl
  | cons a A ih =>
    simp only [List.map_cons, List.sum_cons, ih]
    omega

theorem sum_swap {α β : Type} (C : List α) (B : List β) (h : α → β → Nat) :
    (C.map (fun q => (B.map (h q)).sum)).sum =
      (B.map (fun e => (C.map (fun q => h q e)).sum)).sum := by
  induction C with
  | nil =>
    simp only [List.map_nil, List.sum_nil]
    rw [eq_comm]
    apply List.sum_eq_zero
    intro x hx
    rcases List.mem_map.mp hx with ⟨e, -, rfl⟩
    rfl
  | cons q C ih =>
    simp only [List.map_cons, List.sum_cons, ih]
    rw [eq_comm, List.map_congr_left (fun e _ => rfl), sum_map_add]

theorem sum_single {α : Type} [DecidableEq α] (C : List α) (f : α → Nat)
    (q0 : α) (hnd : C.Nodup) (hq0 : q0 ∈ C)
    (hz : ∀ q ∈ C, q ≠ q0 → f q = 0) : (C.map f).sum = f q0 := by
  induction C with
  | nil => simp at hq0
  | cons a C ih =>
    rw [List.nodup_cons] at hnd
    rcases List.mem_cons.mp hq0 with rfl | hq0
    · simp only [List.map_cons, List.sum_cons]
      have : (C.map f).sum = 0 := by
        apply List.sum_eq_zero
        intro x hx
        rcases List.mem_map.mp hx with ⟨q, hq, rfl⟩
        refine hz q (List.mem_cons_of_mem _ hq) ?_
        intro hqe
        exact hnd.1 (hqe ▸ hq)
      omega
    · simp only [List.map_cons, List.sum_cons]
      rw [ih hnd.2 hq0 (fun q hq hqe => hz q (List.mem_cons_of_mem _ hq) hqe)]
      have ha : f a = 0 := by
        refine hz a (List.mem_cons_self _ _) ?_
        intro hae
        exact hnd.1 (hae ▸ hq0)
      omega

theorem mem_keys_buildTagTree (freq : List (Tag × Nat)) (p : Tag) :
    p ∈ keys (buildTagTree freq) ↔
      ∃ e ∈ freq, touches p (e.1.filter (fun s => s ≠ "")) := by
  rw [mem_keys_iff_isSome, find?_buildTagTree]
  by_cases hc : ∃ e ∈ freq, touches p (e.1.filter (fun s => s ≠ ""))
  · rw [if_pos hc]
    exact iff_of_true rfl hc
  · rw [if_neg hc]
    exact iff_of_false (by simp) hc

theorem dropLast_length_succ {q p : Tag} (hq : q ≠ []) (hd : q.dropLast = p) :
    q.length = p.length + 1 := by
  have h1 : q.dropLast.length = q.length - 1 := List.length_dropLast q
  have h2 : 0 < q.length := List.length_pos.mpr hq
  rw [hd] at h1
  omega

theorem entry_contribution (freq : List (Tag × Nat)) (p : Tag) (hpne : p ≠ [])
    (C : List Tag) (hCnd : C.Nodup)
    (hCiff : ∀ q, q ∈ C ↔
      (q ∈ keys (buildTagTree freq) ∧ q ≠ [] ∧ q.dropLast = p))
    (e : Tag × Nat) (he : e ∈ freq) :
    (if touches p (e.1.filter (fun s => s ≠ "")) then e.2 else 0) =
      (if e.1.filter (fun s => s ≠ "") = p ∧ p ≠ [] then e.2 else 0) +
      (C.map (fun q =>
        if touches q (e.1.filter (fun s => s ≠ "")) then e.2 else 0)).sum := by
  by_cases htp : touches p (e.1.filter (fun s => s ≠ ""))
  · rw [if_pos htp]
    by_cases hex : e.1.filter (fun s => s ≠ "") = p
    · rw [if_pos ⟨hex, hpne⟩]
      have hz : (C.map (fun q =>
          if touches q (e.1.filter (fun s => s ≠ "")) then e.2 else 0)).sum = 0 := by
        apply List.sum_eq_zero
        intro x hx
        rcases List.mem_map.mp hx with ⟨q, hq, rfl⟩
        obtain ⟨-, hqne, hqdrop⟩ := (hCiff q).mp hq
        rw [if_neg]
        rintro ⟨-, hqpre⟩
        have hlen := dropLast_length_succ hqne hqdrop
        have := hqpre.length_le
        rw [hex] at this
        omega
      omega
    · rw [if_neg (fun hc => hex hc.1)]
      have hplt : p.length < (e.1.filter (fun s => s ≠ "")).length := by
        have hle := htp.2.length_le
        rcases Nat.lt_or_ge p.length (e.1.filter (fun s => s ≠ "")).length with h | h
        · exact h
        · exfalso
          apply hex
          have h2 : p.length = (e.1.filter (fun s => s ≠ "")).length := by omega
          have h3 := List.prefix_iff_eq_take.mp htp.2
          rw [h2, List.take_length] at h3
          exact h3.symm
      have hq0len : ((e.1.filter (fun s => s ≠ "")).take (p.length + 1)).length
          = p.length + 1 := by
        rw [List.length_take]
        omega
      have hq0ne : (e.1.filter (fun s => s ≠ "")).take (p.length + 1) ≠ [] := by
        intro hc
        rw [hc] at hq0len
        simp at hq0len
      have hq0drop : ((e.1.filter (fun s => s ≠ "")).take (p.length + 1)).dropLast
          = p := by
        rw [List.dropLast_eq_take, hq0len]
        simp only [Nat.add_sub_cancel]
        rw [List.take_take]
        have hmin : p.length ⊓ (p.length + 1) = p.length := by omega
        rw [hmin]
        exact (List.prefix_iff_eq_take.mp htp.2).symm
      have hq0mem : (e.1.filter (fun s => s ≠ "")).take (p.length + 1) ∈ C := by
        rw [hCiff]
        refine ⟨?_, hq0ne, hq0drop⟩
        rw [mem_keys_buildTagTree]
        exact ⟨e, he, hq0ne, List.take_prefix _ _⟩
      have hsum : (C.map (fun q =>
          if touches q (e.1.filter (fun s => s ≠ "")) then e.2 else 0)).sum
          = e.2 := by
        rw [sum_single C _ ((e.1.filter (fun s => s ≠ "")).take (p.length + 1))
          hCnd hq0mem]
        · rw [if_pos ⟨hq0ne, List.take_prefix _ _⟩]
        · intro q hq hqne0
          obtain ⟨-, hqne, hqdrop⟩ := (hCiff q).mp hq
          rw [if_neg]
          rintro ⟨-, hqpre⟩
          apply hqne0
          have hlen := dropLast_length_succ hqne hqdrop
          have h3 := List.prefix_iff_eq_take.mp hqpre
          rw [h3, hlen]
      omega
  · rw [if_neg htp]
    have h1 : ¬ (e.1.filter (fun s => s ≠ "") = p ∧ p ≠ []) := by
      rintro ⟨rfl, -⟩
      exact htp ⟨hpne, List.prefix_refl _⟩
    rw [if_neg h1]
    have hz : (C.map (fun q =>
        if touches q (e.1.filter (fun s => s ≠ "")) then e.2 else 0)).sum = 0 := by
      apply List.sum_eq_zero
      intro x hx
      rcases List.mem_map.mp hx with ⟨q, hq, rfl⟩
      obtain ⟨-, hqne, hqdrop⟩ := (hCiff q).mp hq
      rw [if_neg]
      rintro ⟨-, hqpre⟩
      apply htp
      refine ⟨hpne, ?_⟩
      have hdp : q.dropLast <+: q := by
        rw [List.dropLast_eq_take]
        exact List.take_prefix _ _
      rw [hqdrop] at hdp
      exact hdp.trans hqpre
    omega

theorem buildTagTree_children_sum (freq : List (Tag × Nat)) (p : Tag)
    (hp : p ∈ keys (buildTagTree freq)) :
    (nodeGet (buildTagTree freq) p).1 =
      (nodeGet (buildTagTree freq) p).2 +
      (((keys (buildTagTree freq)).filter
          (fun q => decide (q ≠ [] ∧ q.dropLast = p))).map
        (fun q => (nodeGet (buildTagTree freq) q).1)).sum := by
  obtain ⟨e0, he0, ht0⟩ := (mem_keys_buildTagTree freq p).mp hp
  have hpne : p ≠ [] := ht0.1
  have hvalp : nodeGet (buildTagTree freq) p =
      (countSpec freq (fun t => t.filter (fun s => s ≠ "")) p,
       exactSpec freq (fun t => t.filter (fun s => s ≠ "")) p) := by
    unfold nodeGet
    rw [find?_buildTagTree, if_pos ⟨e0, he0, ht0⟩]
    rfl
  have hCiff : ∀ q, q ∈ (keys (buildTagTree freq)).filter
      (fun q => decide (q ≠ [] ∧ q.dropLast = p)) ↔
      (q ∈ keys (buildTagTree freq) ∧ q ≠ [] ∧ q.dropLast = p) := by
    intro q
    rw [List.mem_filter]
    simp
  have hCnd : ((keys (buildTagTree freq)).filter
      (fun q => decide (q ≠ [] ∧ q.dropLast = p))).Nodup :=
    (keys_nodup_buildTagTree freq).filter _
  have hmapC : ((keys (buildTagTree freq)).filter
        (fun q => decide (q ≠ [] ∧ q.dropLast = p))).map
      (fun q => (nodeGet (buildTagTree freq) q).1) =
      ((keys (buildTagTree freq)).filter
        (fun q => decide (q ≠ [] ∧ q.dropLast = p))).map
      (fun q => countSpec freq (fun t => t.filter (fun s => s ≠ "")) q) := by
    apply List.map_congr_left
    intro q hq
    obtain ⟨hqk, -, -⟩ := (hCiff q).mp hq
    obtain ⟨e1, he1, ht1⟩ := (mem_keys_buildTagTree freq q).mp hqk
    unfold nodeGet
    rw [find?_buildTagTree, if_pos ⟨e1, he1, ht1⟩]
    rfl
  rw [hvalp, hmapC]
  simp only []
  rw [countSpec_eq_map_sum, exactSpec_eq_map_sum]
  have hswap : (((keys (buildTagTree freq)).filter
        (fun q => decide (q ≠ [] ∧ q.dropLast = p))).map
      (fun q => countSpec freq (fun t => t.filter (fun s => s ≠ "")) q)).sum =
      (freq.map (fun e =>
        (((keys (buildTagTree freq)).filter
            (fun q => decide (q ≠ [] ∧ q.dropLast = p))).map
          (fun q => if touches q (e.1.filter (fun s => s ≠ "")) then e.2
            else 0)).sum)).sum := by
    rw [List.map_congr_left
      (fun q _ => countSpec_eq_map_sum freq (fun t => t.filter (fun s => s ≠ "")) q)]
    exact sum_swap _ freq _
  rw [hswap, ← sum_map_add]
  apply congrArg List.sum
  apply List.map_congr_left
  intro e he
  exact entry_contribution freq p hpne _ hCnd hCiff e he

theorem exactSpec_filter_eq_zero (freq : List (Tag × Nat)) (p : Tag)
    (hclean : ∀ e ∈ freq, e.1.filter (fun s => s ≠ "") = e.1)
    (h : ¬ (p ∈ freq.map (fun e => e.1) ∧ p ≠ [])) :
    exactSpec freq (fun t => t.filter (fun s => s ≠ "")) p = 0 := by
  unfold exactSpec
  have hfil2 : freq.filter
      (fun e => decide (e.1.filter (fun s => s ≠ "") = p ∧ p ≠ [])) = [] := by
    rw [List.filter_eq_nil_iff]
    intro e he
    simp only [decide_eq_true_eq, not_and]
    intro hep hpne
    rw [hclean e he] at hep
    exact h ⟨List.mem_map.mpr ⟨e, he, hep⟩, hpne⟩
  rw [hfil2]
  rfl

theorem find?_build_eq_buildR (freq : List (Tag × Nat))
    (hnd : (freq.map (fun e => e.1)).Nodup)
    (hclean : ∀ e ∈ freq, e.1.filter (fun s => s ≠ "") = e.1) (p : Tag) :
    find? (buildTagTree freq) p = find? (buildTagTreeR freq) p := by
  rw [find?_buildTagTree, find?_buildTagTreeR freq p hnd]
  have hcond : (∃ e ∈ freq, touches p (e.1.filter (fun s => s ≠ ""))) ↔
      ∃ e ∈ freq, touches p e.1 := by
    constructor
    · rintro ⟨e, he, ht⟩
      exact ⟨e, he, (hclean e he) ▸ ht⟩
    · rintro ⟨e, he, ht⟩
      exact ⟨e, he, (hclean e he).symm ▸ ht⟩
  have hcount : countSpec freq (fun t => t.filter (fun s => s ≠ "")) p =
      countSpec freq id p := by
    unfold countSpec
    rw [List.filter_congr]
    intro e he
    show decide (touches p (e.1.filter (fun s => s ≠ ""))) = decide (touches p (id e.1))
    rw [hclean e he]
    rfl
  have hexact : exactSpec freq (fun t => t.filter (fun s => s ≠ "")) p =
      if p ∈ freq.map (fun e => e.1) ∧ p ≠ [] then exactSpec freq id p else 0 := by
    by_cases hmem : p ∈ freq.map (fun e => e.1) ∧ p ≠ []
    · rw [if_pos hmem]
      unfold exactSpec
      rw [List.filter_congr]
      intro e he
      show decide (e.1.filter (fun s => s ≠ "") = p ∧ p ≠ []) =
        decide (id e.1 = p ∧ p ≠ [])
      rw [hclean e he]
      rfl
    · rw [if_neg hmem]
      exact exactSpec_filter_eq_zero freq p hclean hmem
  by_cases hc : ∃ e ∈ freq, touches p e.1
  · rw [if_pos (hcond.mpr hc), if_pos hc, hcount, hexact]
  · rw [if_neg (fun h => hc (hcond.mp h)), if_neg hc]

theorem treeEquiv_build_buildR (freq : List (Tag × Nat))
    (hnd : (freq.map (fun e => e.1)).Nodup)
    (hclean : ∀ e ∈ freq, e.1.filter (fun s => s ≠ "") = e.1) :
    treeEquiv (buildTagTree freq) (buildTagTreeR freq) := by
  constructor
  · intro e he
    rw [← find?_build_eq_buildR freq hnd hclean e.1]
    exact find?_of_mem_of_nodup (keys_nodup_buildTagTree freq) he
  · intro e he
    rw [find?_build_eq_buildR freq hnd hclean e.1]
    exact find?_of_mem_of_nodup (keys_nodup_buildTagTreeR freq) he

end Trees

section Claims

/-- C1 (counterexample): as stated, rollup correctness fails on the code for
tags with empty segments.  Indexing one file with the exact tag "a/"
(segments `["a", ""]`) puts the file in the exact bucket of "a/" and only in
the rolled-up bucket of "a", yet "a/" is a descendant-or-self of itself, so
the claimed union at t = "a/" is nonempty while `tagToFiles["a/"]` is
empty. -/
theorem claim_C1_counterexample :
    ¬ (∀ (t : Tag) (f : FileId), t ≠ [] →
      (f ∈ mapGet (indexFile emptyIdx "f1" [["a", ""]]).tagToFiles t ↔
        ∃ u, isDescendantOrSelf u t ∧
          f ∈ mapGet (indexFile emptyIdx "f1" [["a", ""]]).exactTagToFiles u)) := by
  intro hall
  have h2 := (hall ["a", ""] "f1" (by decide)).mpr
    ⟨["a", ""], Or.inl rfl, by decide⟩
  exact absurd h2 (by decide)

/-- C1 (amended): after any sequence of indexFile / removeFile operations in
which every indexed tag is canonical (nonempty, no empty segments), the
rolled-up postings set of any nonempty tag t equals the union of the exact
postings sets over all tags that are t or descendants of t: a file is in
`tagToFiles[t]` iff one of its exact tags has t as an ancestor-or-self. -/
theorem claim_C1_rollup (s : Idx) (h : ReachableC s) (t : Tag) (ht : t ≠ [])
    (f : FileId) :
    f ∈ mapGet s.tagToFiles t ↔
      ∃ u, isDescendantOrSelf u t ∧ f ∈ mapGet s.exactTagToFiles u := by
  obtain ⟨hex, hro, -, -⟩ := inv_of_reachable (reachable_of_reachableC h)
  have hcanon := canonTags_of_reachableC h
  rw [hro t f]
  constructor
  · rintro ⟨u, hu, hpar⟩
    refine ⟨u, ?_, (hex u f).mpr hu⟩
    exact (mem_parentsOf_canonical (hcanon f u hu) ht).mp hpar
  · rintro ⟨u, hdesc, hmem⟩
    have hu := (hex u f).mp hmem
    exact ⟨u, hu, (mem_parentsOf_canonical (hcanon f u hu) ht).mpr hdesc⟩

theorem claim_C1_rollup_witness :
    "f1" ∈ mapGet (indexFile emptyIdx "f1" [["a"], ["a", "b"]]).tagToFiles ["a"] :=
  (claim_C1_rollup _ (ReachableC.index _ _ _ (by decide) ReachableC.empty)
    ["a"] (by decide) "f1").mpr
    ⟨["a", "b"], Or.inr ⟨by decide, by decide⟩, by decide⟩

/-- C2: in refresh (the later revision, which subtracts by exact-tag
descendant testing), a document that matches every included filter but
carries an exact tag equal to, or a descendant of, any single member of the
excluded set is never present in the final result, for every corpus that
contains all indexed documents and every facet state. -/
theorem claim_C2_exclusion (s : Idx) (allFiles : List FileId)
    (selected : List (Tag × TagMatchMode)) (excluded : List Tag)
    (startEmpty : Bool) (fid : FileId) (e t : Tag)
    (hcov : ∀ (u : Tag) (g : FileId), g ∈ mapGet s.tagToFiles u → g ∈ allFiles)
    (hmatch : fileMatches (filtersOf selected) (exactTagsForFile s fid) = true)
    (he : e ∈ excluded) (ht : t ∈ exactTagsForFile s fid)
    (hdesc : t = e ∨ (e ≠ [] ∧ e <+: t ∧ t ≠ e)) :
    fid ∉ refresh s allFiles selected excluded startEmpty := by
  intro hmem
  unfold refresh at hmem
  have hene : excluded.isEmpty = false := by
    cases excluded
    · simp at he
    · rfl
  rw [hene] at hmem
  simp only [Bool.false_eq_true, if_false] at hmem
  rw [List.mem_filter] at hmem
  obtain ⟨hcur, hnotin⟩ := hmem
  have hnotin2 : fid ∉ allFiles.filter (fun fid2 =>
      excluded.any (fun e2 =>
        (exactTagsForFile s fid2).any (fun ft => ft == e2 || startsWithSlash ft e2))) :=
    of_decide_eq_true hnotin
  have hfidall : fid ∈ allFiles := by
    by_cases hsel : selected.isEmpty
    · rw [if_pos hsel] at hcur
      cases hse : startEmpty with
      | true =>
        rw [hse] at hcur
        simp at hcur
      | false =>
        rw [hse] at hcur
        simp only [Bool.false_eq_true, if_false] at hcur
        rw [List.mem_dedup, List.mem_flatMap] at hcur
        obtain ⟨tg, -, hfw⟩ := hcur
        have h1 := (mem_filesWithAll s [tg] [] (by simp) fid).mp hfw tg
          (List.mem_cons_self _ _)
        unfold postingsForFilter at h1
        rw [if_neg (by simp)] at h1
        exact hcov (lowerTag tg) fid h1
    · rw [if_neg hsel] at hcur
      exact (List.mem_filter.mp hcur).1
  apply hnotin2
  rw [List.mem_filter]
  refine ⟨hfidall, ?_⟩
  rw [List.any_eq_true]
  refine ⟨e, he, ?_⟩
  rw [List.any_eq_true]
  refine ⟨t, ht, ?_⟩
  rw [Bool.or_eq_true]
  rcases hdesc with rfl | hstrict
  · left
    simp
  · right
    unfold startsWithSlash
    exact decide_eq_true hstrict

theorem claim_C2_exclusion_witness :
    "f1" ∉ refresh (indexFile emptyIdx "f1" [["a", "b"]]) ["f1"]
      [(["a"], TagMatchMode.nested)] [["a", "b"]] true :=
  claim_C2_exclusion (indexFile emptyIdx "f1" [["a", "b"]]) ["f1"]
    [(["a"], TagMatchMode.nested)] [["a", "b"]] true "f1" ["a", "b"] ["a", "b"]
    (mapGet_cov _ (fun g => g ∈ ["f1"]) (by decide))
    (by decide) (by decide) (by decide) (Or.inl rfl)

/-- C3: for a nonempty filter list, filesWithAll returns exactly the
intersection of the per-filter postings sets (exact postings for filters in
the exacts set, rolled-up postings otherwise); in particular the
size-ascending order in which the sets are intersected never changes the
resulting set, which this characterization determines uniquely. -/
theorem claim_C3_intersection (s : Idx) (tags exacts : List Tag)
    (h : tags ≠ []) (f : FileId) :
    f ∈ filesWithAll s tags exacts ↔
      ∀ t ∈ tags, f ∈ postingsForFilter s t exacts :=
  mem_filesWithAll s tags exacts h f

theorem claim_C3_intersection_witness :
    "f1" ∈ filesWithAll (indexFile emptyIdx "f1" [["a"], ["b"]])
      [["a"], ["b"]] [["a"]] :=
  (claim_C3_intersection _ _ _ (by decide) "f1").mpr (by decide)

/-- C4 (counterexample): normalization is not idempotent on every input:
normalize strips only one leading hash, so normalize("##a") = "#a" but
normalize(normalize("##a")) = "a". -/
theorem claim_C4_counterexample :
    normalize (normalize "##a") ≠ normalize "##a" := by decide

/-- C4 (amended): normalization is idempotent on every input whose
normalized form does not itself start with '#' (equivalently, on every
input with at most one leading hash before other normalization). -/
theorem claim_C4_normalize_idempotent (x : String)
    (h : startsWithHash (normalize x).data = false) :
    normalize (normalize x) = normalize x :=
  congrArg String.mk (normalizeChars_idem x.data h)

theorem claim_C4_normalize_idempotent_witness :
    normalize (normalize "#Area/Sec Ops") = normalize "#Area/Sec Ops" :=
  claim_C4_normalize_idempotent "#Area/Sec Ops" (by decide)

/-- C5: indexing the same file twice with the same tag list leaves the
index state (exact postings, rolled-up postings buckets as sets, and the
per-file tag record) identical to indexing it once. -/
theorem claim_C5_index_idempotent (s : Idx) (fid : FileId) (tags : List Tag) :
    (∀ t f, f ∈ mapGet (indexFile (indexFile s fid tags) fid tags).exactTagToFiles t ↔
      f ∈ mapGet (indexFile s fid tags).exactTagToFiles t) ∧
    (∀ t f, f ∈ mapGet (indexFile (indexFile s fid tags) fid tags).tagToFiles t ↔
      f ∈ mapGet (indexFile s fid tags).tagToFiles t) ∧
    (∀ g, exactTagsForFile (indexFile (indexFile s fid tags) fid tags) g =
      exactTagsForFile (indexFile s fid tags) g) := by
  have hP : exactTagsForFile (indexFile s fid tags) fid = tags.dedup := by
    rw [exactTagsForFile_indexFile]
    exact if_pos rfl
  refine ⟨?_, ?_, ?_⟩
  · intro t f
    have hs1 : f ∈ mapGet (indexFile s fid tags).exactTagToFiles t ↔
        ((f ∈ mapGet s.exactTagToFiles t ∧
          ¬(t ∈ exactTagsForFile s fid ∧ f = fid)) ∨
         (t ∈ tags.dedup ∧ f = fid)) := by
      rw [indexFile_exact_eq, mem_mapGet_foldl_add, mem_mapGet_foldl_remove]
    rw [indexFile_exact_eq (indexFile s fid tags) fid tags,
      mem_mapGet_foldl_add, mem_mapGet_foldl_remove, hP]
    constructor
    · rintro (⟨hA, -⟩ | ⟨htD, rfl⟩)
      · exact hA
      · exact hs1.mpr (Or.inr ⟨htD, rfl⟩)
    · intro hA
      by_cases hD : t ∈ tags.dedup ∧ f = fid
      · exact Or.inr hD
      · exact Or.inl ⟨hA, hD⟩
  · intro t f
    have hs1 : f ∈ mapGet (indexFile s fid tags).tagToFiles t ↔
        ((f ∈ mapGet s.tagToFiles t ∧
          ¬(t ∈ (exactTagsForFile s fid).flatMap parentsOf ∧ f = fid)) ∨
         (t ∈ (tags.dedup).flatMap parentsOf ∧ f = fid)) := by
      rw [indexFile_rolled_eq, mem_mapGet_foldl_add, mem_mapGet_foldl_remove]
    rw [indexFile_rolled_eq (indexFile s fid tags) fid tags,
      mem_mapGet_foldl_add, mem_mapGet_foldl_remove, hP]
    constructor
    · rintro (⟨hA, -⟩ | ⟨htD, rfl⟩)
      · exact hA
      · exact hs1.mpr (Or.inr ⟨htD, rfl⟩)
    · intro hA
      by_cases hD : t ∈ (tags.dedup).flatMap parentsOf ∧ f = fid
      · exact Or.inr hD
      · exact Or.inl ⟨hA, hD⟩
  · intro g
    rw [exactTagsForFile_indexFile]
    by_cases hg : fid = g
    · subst hg
      rw [if_pos rfl]
      exact hP.symm
    · rw [if_neg hg]

/-- C6: after removeFile on a reachable index, the file appears in no exact
or rolled-up postings bucket, its exact tag set is empty, and the rolled-up
key set (allTags) no longer contains any tag whose postings were only that
file (empty buckets are pruned). -/
theorem claim_C6_removal (s : Idx) (h : Reachable s) (fid : FileId) :
    (∀ t, fid ∉ mapGet (removeFile s fid).exactTagToFiles t) ∧
    (∀ t, fid ∉ mapGet (removeFile s fid).tagToFiles t) ∧
    exactTagsForFile (removeFile s fid) fid = [] ∧
    (∀ t, (∀ g ∈ mapGet s.tagToFiles t, g = fid) →
      t ∉ allTags (removeFile s fid)) := by
  have hInv := inv_of_reachable h
  obtain ⟨hex2, hro2, hpe2, hpr2⟩ := inv_removeFile s fid hInv
  obtain ⟨hex, hro, -, -⟩ := hInv
  have hTags : exactTagsForFile (removeFile s fid) fid = [] := by
    rw [exactTagsForFile_removeFile]
    exact if_pos rfl
  refine ⟨?_, ?_, hTags, ?_⟩
  · intro t hmem
    have h1 := (hex2 t fid).mp hmem
    rw [hTags] at h1
    simp at h1
  · intro t hmem
    obtain ⟨u, hu, -⟩ := (hro2 t fid).mp hmem
    rw [hTags] at hu
    simp at hu
  · intro t honly hmemT
    have hne := hpr2 t hmemT
    obtain ⟨g, hg⟩ := List.exists_mem_of_ne_nil _ hne
    have hgfid : g ≠ fid := by
      rintro rfl
      obtain ⟨u, hu, -⟩ := (hro2 t g).mp hg
      rw [hTags] at hu
      simp at hu
    obtain ⟨u, hu, hpar⟩ := (hro2 t g).mp hg
    rw [exactTagsForFile_removeFile, if_neg (fun hc => hgfid hc.symm)] at hu
    have hgs : g ∈ mapGet s.tagToFiles t := (hro t g).mpr ⟨u, hu, hpar⟩
    exact hgfid (honly g hgs)

theorem claim_C6_removal_witness :
    ("f1" ∉ mapGet (removeFile (indexFile emptyIdx "f1" [["a"]]) "f1").tagToFiles ["a"]) ∧
    exactTagsForFile (removeFile (indexFile emptyIdx "f1" [["a"]]) "f1") "f1" = [] :=
  ⟨(claim_C6_removal _ (Reachable.index _ _ _ Reachable.empty) "f1").2.1 ["a"],
   (claim_C6_removal _ (Reachable.index _ _ _ Reachable.empty) "f1").2.2.1⟩

/-- C7: in the forest built by utils.buildTagTree, every node's rolled-up
count is its exact count plus the sum of its direct children's rolled-up
counts; a node exists for every nonempty prefix of every tag in the
frequency map; a node at a path with no exact occurrence has exact count
zero; and a node's count is the total contribution of every tag having the
node's path as a prefix (nodes are deduplicated by full path, summing
contributions from different tags). -/
theorem claim_C7_tree_invariants (freq : List (Tag × Nat)) (p : Tag)
    (hp : p ∈ keys (buildTagTree freq)) :
    ((nodeGet (buildTagTree freq) p).1 =
      (nodeGet (buildTagTree freq) p).2 +
      (((keys (buildTagTree freq)).filter
          (fun q => decide (q ≠ [] ∧ q.dropLast = p))).map
        (fun q => (nodeGet (buildTagTree freq) q).1)).sum) ∧
    (∀ e ∈ freq, ∀ q : Tag, q ≠ [] → q <+: e.1.filter (fun s => s ≠ "") →
      q ∈ keys (buildTagTree freq)) ∧
    ((∀ e ∈ freq, e.1.filter (fun s => s ≠ "") ≠ p) →
      (nodeGet (buildTagTree freq) p).2 = 0) ∧
    ((nodeGet (buildTagTree freq) p).1 =
      countSpec freq (fun t => t.filter (fun s => s ≠ "")) p) := by
  obtain ⟨e0, he0, ht0⟩ := (mem_keys_buildTagTree freq p).mp hp
  have hval : nodeGet (buildTagTree freq) p =
      (countSpec freq (fun t => t.filter (fun s => s ≠ "")) p,
       exactSpec freq (fun t => t.filter (fun s => s ≠ "")) p) := by
    unfold nodeGet
    rw [find?_buildTagTree, if_pos ⟨e0, he0, ht0⟩]
    rfl
  refine ⟨buildTagTree_children_sum freq p hp, ?_, ?_, ?_⟩
  · intro e he q hqne hqpre
    exact (mem_keys_buildTagTree freq q).mpr ⟨e, he, hqne, hqpre⟩
  · intro hall
    rw [hval]
    show exactSpec freq (fun t => t.filter (fun s => s ≠ "")) p = 0
    unfold exactSpec
    have hfil : freq.filter
        (fun e => decide ((fun t => t.filter (fun s => s ≠ "")) e.1 = p ∧ p ≠ [])) = [] := by
      rw [List.filter_eq_nil_iff]
      intro e he
      simp only [decide_eq_true_eq, not_and]
      intro hep
      exact absurd hep (hall e he)
    rw [hfil]
    rfl
  · rw [hval]

theorem claim_C7_tree_invariants_witness :
    (nodeGet (buildTagTree [(["a"], 2), (["a", "b"], 1)]) ["a"]).1 =
      (nodeGet (buildTagTree [(["a"], 2), (["a", "b"], 1)]) ["a"]).2 +
      (((keys (buildTagTree [(["a"], 2), (["a", "b"], 1)])).filter
          (fun q => decide (q ≠ [] ∧ q.dropLast = ["a"]))).map
        (fun q => (nodeGet (buildTagTree [(["a"], 2), (["a", "b"], 1)]) q).1)).sum :=
  (claim_C7_tree_invariants [(["a"], 2), (["a", "b"], 1)] ["a"] (by decide)).1

/-- C8: after renderCoTags' enlarge-then-recompute step, the resulting
co-tag frequency map contains no tag equal to, or a descendant of, any
originally excluded tag. -/
theorem claim_C8_exclusion_propagation (s : Idx) (files : List FileId)
    (selectedKeys excluded : List Tag) (e tag : Tag) (he : e ∈ excluded)
    (hdesc : tag = e ∨ (e ≠ [] ∧ e <+: tag ∧ tag ≠ e)) :
    tag ∉ keys (renderCoTagsFreq s files selectedKeys excluded) := by
  intro hmem
  unfold renderCoTagsFreq at hmem
  by_cases hadd : ((keys (coTagFrequencies s files (selectedKeys ++ excluded))).filter
      (fun tg => excluded.any (fun e2 => startsWithSlash tg e2))).isEmpty
  · rw [if_pos hadd] at hmem
    obtain ⟨hnotE, -⟩ := (mem_keys_coTagFrequencies s files _ tag).mp hmem
    rcases hdesc with rfl | hstrict
    · exact hnotE (List.mem_append.mpr (Or.inr he))
    · have hin : tag ∈ (keys (coTagFrequencies s files
          (selectedKeys ++ excluded))).filter
          (fun tg => excluded.any (fun e2 => startsWithSlash tg e2)) :=
        List.mem_filter.mpr ⟨hmem, by
          rw [List.any_eq_true]
          exact ⟨e, he, decide_eq_true hstrict⟩⟩
      rw [List.isEmpty_iff] at hadd
      rw [hadd] at hin
      simp at hin
  · rw [if_neg hadd] at hmem
    obtain ⟨hnotE2, hexist⟩ := (mem_keys_coTagFrequencies s files _ tag).mp hmem
    rcases hdesc with rfl | hstrict
    · exact hnotE2 (List.mem_append.mpr
        (Or.inl (List.mem_append.mpr (Or.inr he))))
    · have hnotE : tag ∉ selectedKeys ++ excluded :=
        fun hc => hnotE2 (List.mem_append.mpr (Or.inl hc))
      have hkey1 : tag ∈ keys (coTagFrequencies s files
          (selectedKeys ++ excluded)) :=
        (mem_keys_coTagFrequencies s files _ tag).mpr ⟨hnotE, hexist⟩
      have hinadd : tag ∈ (keys (coTagFrequencies s files
          (selectedKeys ++ excluded))).filter
          (fun tg => excluded.any (fun e2 => startsWithSlash tg e2)) :=
        List.mem_filter.mpr ⟨hkey1, by
          rw [List.any_eq_true]
          exact ⟨e, he, decide_eq_true hstrict⟩⟩
      exact hnotE2 (List.mem_append.mpr (Or.inr hinadd))

theorem claim_C8_exclusion_propagation_witness :
    ["a", "b"] ∉ keys (renderCoTagsFreq (indexFile emptyIdx "f1" [["a", "b"]])
      ["f1"] [] [["a"]]) :=
  claim_C8_exclusion_propagation _ _ _ _ ["a"] ["a", "b"] (by decide)
    (Or.inr ⟨by decide, by decide, by decide⟩)

/-- C9: unknown inputs yield empty results or no-ops rather than errors:
a filter list containing a tag absent from both postings maps gives an
empty result; exactTagsForFile of an unknown file is empty; and
toggleFacetMode / removeFacet on a tag that is not selected leave the facet
state unchanged. -/
theorem claim_C9_no_raise :
    (∀ (s : Idx) (tags exacts : List Tag) (t : Tag) (f : FileId),
      t ∈ tags → lowerTag t ∉ keys s.exactTagToFiles →
      lowerTag t ∉ keys s.tagToFiles → f ∉ filesWithAll s tags exacts) ∧
    (∀ (s : Idx) (f : FileId), f ∉ keys s.fileToExactTags →
      exactTagsForFile s f = []) ∧
    (∀ (fs : FacetState) (tag : String),
      normalizeTag tag ∉ keys fs.selected → toggleFacetMode fs tag = fs) ∧
    (∀ (fs : FacetState) (tag : String),
      normalizeTag tag ∉ keys fs.selected → removeFacet fs tag = fs) := by
  refine ⟨?_, ?_, ?_, ?_⟩
  · intro s tags exacts t f htag hke hkr hmem
    have htne : tags ≠ [] := fun hc => by
      rw [hc] at htag
      simp at htag
    have h1 := (mem_filesWithAll s tags exacts htne f).mp hmem t htag
    unfold postingsForFilter at h1
    by_cases hle : lowerTag t ∈ exacts
    · rw [if_pos hle] at h1
      unfold mapGet at h1
      rw [find?_eq_none_of_not_mem_keys hke] at h1
      simp at h1
    · rw [if_neg hle] at h1
      unfold mapGet at h1
      rw [find?_eq_none_of_not_mem_keys hkr] at h1
      simp at h1
  · intro s f hk
    unfold exactTagsForFile
    rw [find?_eq_none_of_not_mem_keys hk]
    rfl
  · intro fs tag hk
    unfold toggleFacetMode
    dsimp only
    rw [find?_eq_none_of_not_mem_keys hk]
  · intro fs tag hk
    unfold removeFacet
    have herase : eraseKey fs.selected (normalizeTag tag) = fs.selected := by
      unfold eraseKey
      rw [List.filter_eq_self]
      intro e he
      simp only [ne_eq, decide_not, Bool.not_eq_eq_eq_not, Bool.not_true,
        decide_eq_false_iff_not]
      intro hek
      exact hk (hek ▸ List.mem_map.mpr ⟨e, he, rfl⟩)
    rw [herase]

theorem claim_C9_no_raise_witness :
    toggleFacetMode (FacetState.mk [("area", TagMatchMode.exact)] []) "other" =
      FacetState.mk [("area", TagMatchMode.exact)] [] :=
  claim_C9_no_raise.2.2.1 (FacetState.mk [("area", TagMatchMode.exact)] [])
    "other" (by decide)

/-- C10 (counterexample): the two tree builders disagree on tags with empty
segments: on the single-entry frequency map for the tag "a/" (segments
`["a", ""]`) utils.buildTagTree collapses to a single node "a" with exact
count 1, while TagRenderer.buildTagTree creates the node "a" with exact
count 0 and a child at path "a/". -/
theorem claim_C10_counterexample :
    ¬ treeEquiv (buildTagTree [(["a", ""], 1)])
      (buildTagTreeR [(["a", ""], 1)]) := by decide

/-- C10 (amended): on every frequency map with distinct keys whose tags are
nonempty and contain no empty segment, the two builders produce the same
forest (same node paths and same count / exactCount at every node). -/
theorem claim_C10_builders_agree (freq : List (Tag × Nat))
    (hnd : (freq.map (fun e => e.1)).Nodup)
    (hclean : ∀ e ∈ freq, e.1 ≠ [] ∧ "" ∉ e.1) :
    treeEquiv (buildTagTree freq) (buildTagTreeR freq) := by
  apply treeEquiv_build_buildR freq hnd
  intro e he
  exact canonical_filter_eq ⟨(hclean e he).1, (hclean e he).2⟩

theorem claim_C10_builders_agree_witness :
    treeEquiv (buildTagTree [(["a"], 2), (["a", "b"], 1)])
      (buildTagTreeR [(["a"], 2), (["a", "b"], 1)]) :=
  claim_C10_builders_agree _ (by decide) (by decide)

end Claims

end FacetNav
